import Mathlib

/-!
Verification of the chunking → storage → retrieval core of the azai RAG
pipeline, shallowly embedded from the Python source:

* rag/rag/chunking.py        (DocumentChunker.chunk_text, store_chunks)
* backend/src/rag/embedding.py  (Embedder.process_pending_embeddings)
* backend/src/rag/retrieval.py  (Retriever.find_relevant_chunks)
* cli/cli/commands/chunk.py  (rechunk_document, delete_chunks)

Python strings are modelled as lists of characters (Str); the string
operations the code uses (str.split(), str.split-on-two-newlines,
" ".join, str.strip truthiness) are given explicit recursive models.
The tokenizer is an external collaborator and is modelled as a parameter
giving each text a token count.  The database package (Chunk model,
open_session) is repository code not present under src/, so the chunk
store and its transactional sessions are modelled from the spec as an
ordered list of records with commit/rollback made explicit.
-/

/-- A Python string, modelled as its sequence of characters. -/
abbrev Str := List Char

/-- The whitespace characters relevant to Python's str.split() and
str.strip() for the texts this pipeline handles. -/
def isWS (c : Char) : Bool :=
  c == ' ' || c == '\t' || c == '\n' || c == '\r'

theorem length_dropWhile_le (p : Char → Bool) :
    ∀ l : Str, (l.dropWhile p).length ≤ l.length := by
  intro l
  induction l with
  | nil => simp
  | cons c cs ih =>
    by_cases h : p c
    · simp only [List.dropWhile_cons, h, if_true]
      exact Nat.le_trans ih (Nat.le_succ _)
    · simp [List.dropWhile_cons, h]

/-- Fuel-driven worker for pyWords; the fuel only makes the recursion
structural and never runs out when it starts at the list's length. -/
def pyWordsF : Nat → Str → List Str
  | _, [] => []
  | 0, _ :: _ => []
  | fuel + 1, c :: cs =>
    if isWS c then pyWordsF fuel cs
    else (c :: cs.takeWhile (fun d => !isWS d)) :: pyWordsF fuel (cs.dropWhile (fun d => !isWS d))

/-- Model of Python str.split() (no argument): split on runs of
whitespace, discarding empty pieces. -/
def pyWords (l : Str) : List Str :=
  pyWordsF l.length l

theorem pyWordsF_congr : ∀ f1 f2 : Nat, ∀ l : Str,
    l.length ≤ f1 → l.length ≤ f2 → pyWordsF f1 l = pyWordsF f2 l := by
  intro f1
  induction f1 with
  | zero =>
    intro f2 l h1 _
    cases l with
    | nil => cases f2 <;> rfl
    | cons c cs => simp at h1
  | succ g ih =>
    intro f2 l h1 h2
    cases l with
    | nil => cases f2 <;> rfl
    | cons c cs =>
      cases f2 with
      | zero => simp at h2
      | succ h =>
        simp only [pyWordsF]
        by_cases hc : isWS c
        · rw [if_pos hc, if_pos hc]
          exact ih h cs (Nat.le_of_succ_le_succ h1) (Nat.le_of_succ_le_succ h2)
        · rw [if_neg hc, if_neg hc]
          have hd := length_dropWhile_le (fun d => !isWS d) cs
          exact congrArg _ (ih h _
            (Nat.le_trans hd (Nat.le_of_succ_le_succ h1))
            (Nat.le_trans hd (Nat.le_of_succ_le_succ h2)))

theorem pyWordsF_eq_pyWords {f : Nat} {l : Str} (h : l.length ≤ f) :
    pyWordsF f l = pyWords l :=
  pyWordsF_congr f l.length l h (Nat.le_refl _)

/-- Induction principle matching the word-splitting recursion. -/
theorem pyWords_rec (P : Str → Prop) (h1 : P [])
    (h2 : ∀ c : Char, ∀ cs : Str, isWS c = true → P cs → P (c :: cs))
    (h3 : ∀ c : Char, ∀ cs : Str, isWS c = false →
      P (cs.dropWhile (fun d => !isWS d)) → P (c :: cs)) :
    ∀ l : Str, P l
  | [] => h1
  | c :: cs =>
    if h : isWS c then
      h2 c cs h (pyWords_rec P h1 h2 h3 cs)
    else
      h3 c cs (by simpa using h)
        (pyWords_rec P h1 h2 h3 (cs.dropWhile (fun d => !isWS d)))
termination_by l => l.length
decreasing_by
  · simp +arith
  · simp only [List.length_cons]
    exact Nat.lt_succ_of_le (length_dropWhile_le _ _)

/-- Model of Python text.split("\n\n"): cut at each non-overlapping
occurrence of two consecutive newlines, scanning left to right. -/
def splitParas : Str → List Str
  | [] => [[]]
  | '\n' :: '\n' :: cs => [] :: splitParas cs
  | c :: cs =>
    match splitParas cs with
    | [] => [[c]]
    | h :: t => (c :: h) :: t

/-- Model of Python p.strip() being truthy: p contains a non-whitespace
character. -/
def hasContent (p : Str) : Bool :=
  p.any (fun c => !isWS c)

/-- Model of Python " ".join(ws). -/
def joinSp (ws : List Str) : Str :=
  List.intercalate [' '] ws

/-- Model of Python "\n\n".join(ls). -/
def joinParas (ls : List Str) : Str :=
  List.intercalate ['\n', '\n'] ls

/-- A chunk candidate as produced by DocumentChunker.chunk_text: the
dict field "text" plus the "meta" fields "page_no" and "index". -/
structure Candidate where
  text : Str
  page_no : Nat
  index : Nat
deriving DecidableEq, Repr

/-- The greedy word-packing loop of chunk_text (the else-branch over a
paragraph whose token count exceeds the budget): accumulate words while
the running sum of per-word token counts stays within max_tokens; on
overflow close the current candidate and start a new one with the
overflowing word; append the trailing candidate if non-empty. -/
def packWordsAux (tc : Str → Nat) (maxT : Int) (i : Nat) :
    List Str → List Str → Nat → List Candidate
  | [], cur, _ => if cur.isEmpty then [] else [⟨joinSp cur, 1, i⟩]
  | w :: ws, cur, curLen =>
    let wt := tc w
    if (curLen + wt : Int) ≤ maxT then
      packWordsAux tc maxT i ws (cur ++ [w]) (curLen + wt)
    else
      ⟨joinSp cur, 1, i⟩ :: packWordsAux tc maxT i ws [w] wt

/-- The non-blank paragraphs of the input text, as chunk_text computes
them: split on "\n\n" and keep those whose strip() is truthy. -/
def chunkParagraphs (text : Str) : List Str :=
  (splitParas text).filter hasContent

/-- The per-paragraph loop of chunk_text, carrying the enumerate index. -/
def chunkLoop (tc : Str → Nat) (maxT : Int) : Nat → List Str → List Candidate
  | _, [] => []
  | i, p :: ps =>
    (if (tc p : Int) ≤ maxT then [⟨p, 1, i⟩]
     else packWordsAux tc maxT i (pyWords p) [] 0) ++ chunkLoop tc maxT (i + 1) ps

/-- DocumentChunker.chunk_text with an already-resolved max_tokens
budget: split into paragraphs on blank lines, keep a paragraph whole
when its token count fits, otherwise greedily pack its words.  tc
models len(tokenizer.tokenize(-)) of the external tokenizer. -/
def chunk_text (tc : Str → Nat) (maxT : Int) (text : Str) : List Candidate :=
  chunkLoop tc maxT 0 (chunkParagraphs text)

/-- The Python default-argument resolution max_tokens or self.max_tokens:
None and the falsy value 0 both fall back to the configured default. -/
def resolve_max_tokens (defaultMax : Int) (mt : Option Int) : Int :=
  match mt with
  | none => defaultMax
  | some v => if v = 0 then defaultMax else v

/-- DocumentChunker.chunk_text as called, including the
max_tokens-or-default resolution of its first line. -/
def chunk_text_entry (tc : Str → Nat) (defaultMax : Int) (mt : Option Int)
    (text : Str) : List Candidate :=
  chunk_text tc (resolve_max_tokens defaultMax mt) text

/-! ### Word-splitting lemmas -/

theorem takeWhile_append_sep (p : Char → Bool) (sep : Char) (hsep : p sep = false) :
    ∀ a b : Str, ((a ++ sep :: b).takeWhile p) = a.takeWhile p := by
  intro a b
  induction a with
  | nil => simp [List.takeWhile_cons, hsep]
  | cons c a' ih =>
    by_cases h : p c
    · simp [List.takeWhile_cons, h, ih]
    · simp [List.takeWhile_cons, h]

theorem dropWhile_append_sep (p : Char → Bool) (sep : Char) (hsep : p sep = false) :
    ∀ a b : Str, ((a ++ sep :: b).dropWhile p) = a.dropWhile p ++ sep :: b := by
  intro a b
  induction a with
  | nil => simp [List.dropWhile_cons, hsep]
  | cons c a' ih =>
    by_cases h : p c
    · simp [List.dropWhile_cons, h, ih]
    · simp [List.dropWhile_cons, h]

theorem pyWords_nil : pyWords [] = [] := rfl

theorem pyWords_cons_ws {c : Char} (h : isWS c = true) (cs : Str) :
    pyWords (c :: cs) = pyWords cs := by
  unfold pyWords
  simp only [List.length_cons, pyWordsF, if_pos h]

theorem pyWords_cons_not_ws {c : Char} (h : isWS c = false) (cs : Str) :
    pyWords (c :: cs) =
      (c :: cs.takeWhile (fun d => !isWS d)) :: pyWords (cs.dropWhile (fun d => !isWS d)) := by
  unfold pyWords
  simp only [List.length_cons, pyWordsF, if_neg (by simp [h] : ¬isWS c = true)]
  exact congrArg _ (pyWordsF_congr _ _ _
    (length_dropWhile_le _ _) (Nat.le_refl _))

/-- Splitting into words distributes over a whitespace separator: the
words of a ++ sep :: b are the words of a followed by the words of b. -/
theorem pyWords_append_ws {sep : Char} (hsep : isWS sep = true) :
    ∀ a b : Str, pyWords (a ++ sep :: b) = pyWords a ++ pyWords b := by
  intro a
  induction a using pyWords_rec with
  | h1 =>
    intro b
    simp [pyWords_nil, pyWords_cons_ws hsep]
  | h2 c cs hc ih =>
    intro b
    simp only [List.cons_append]
    rw [pyWords_cons_ws hc, pyWords_cons_ws hc, ih]
  | h3 c cs hc ih =>
    intro b
    simp only [List.cons_append]
    rw [pyWords_cons_not_ws hc, pyWords_cons_not_ws hc,
      takeWhile_append_sep _ sep (by simp [hsep]),
      dropWhile_append_sep _ sep (by simp [hsep]), ih]
    simp

theorem joinSp_nil : joinSp [] = [] := by
  simp [joinSp, List.intercalate]

theorem joinSp_singleton (w : Str) : joinSp [w] = w := by
  simp [joinSp, List.intercalate]

theorem joinSp_cons_cons (w x : Str) (ws : List Str) :
    joinSp (w :: x :: ws) = w ++ ' ' :: joinSp (x :: ws) := by
  simp [joinSp, List.intercalate]

theorem joinParas_nil : joinParas [] = [] := by
  simp [joinParas, List.intercalate]

theorem joinParas_singleton (p : Str) : joinParas [p] = p := by
  simp [joinParas, List.intercalate]

theorem joinParas_cons_cons (p q : Str) (ps : List Str) :
    joinParas (p :: q :: ps) = p ++ '\n' :: '\n' :: joinParas (q :: ps) := by
  simp [joinParas, List.intercalate]

/-- A word, as produced by str.split(): non-empty and free of
whitespace. -/
def IsWord (w : Str) : Prop :=
  w ≠ [] ∧ ∀ c ∈ w, isWS c = false

theorem pyWords_all_ws {p : Str} (h : ∀ c ∈ p, isWS c = true) : pyWords p = [] := by
  induction p with
  | nil => exact pyWords_nil
  | cons c cs ih =>
    rw [pyWords_cons_ws (h c (List.mem_cons_self c cs))]
    exact ih fun d hd => h d (List.mem_cons_of_mem c hd)

theorem pyWords_eq_nil_of_not_hasContent {p : Str} (h : hasContent p = false) :
    pyWords p = [] := by
  refine pyWords_all_ws fun c hc => ?_
  simp only [hasContent, List.any_eq_false, Bool.not_eq_true'] at h
  have := h c hc
  revert this
  cases isWS c <;> simp

theorem pyWords_of_isWord {w : Str} (h : IsWord w) : pyWords w = [w] := by
  obtain ⟨hne, hws⟩ := h
  cases w with
  | nil => exact absurd rfl hne
  | cons c cs =>
    rw [pyWords_cons_not_ws (hws c (List.mem_cons_self c cs))]
    have ht : cs.takeWhile (fun d => !isWS d) = cs :=
      List.takeWhile_eq_self_iff.mpr fun d hd => by
        simp [hws d (List.mem_cons_of_mem c hd)]
    have hd : cs.dropWhile (fun d => !isWS d) = [] :=
      List.dropWhile_eq_nil_iff.mpr fun d hd => by
        simp [hws d (List.mem_cons_of_mem c hd)]
    rw [ht, hd, pyWords_nil]

theorem isWord_of_mem_pyWords : ∀ {l : Str} {w : Str}, w ∈ pyWords l → IsWord w := by
  intro l
  induction l using pyWords_rec with
  | h1 =>
    intro w hw
    rw [pyWords_nil] at hw
    exact absurd hw (List.not_mem_nil w)
  | h2 c cs hc ih =>
    intro w hw
    rw [pyWords_cons_ws hc] at hw
    exact ih hw
  | h3 c cs hc ih =>
    intro w hw
    rw [pyWords_cons_not_ws hc] at hw
    rcases List.mem_cons.mp hw with h | h
    · subst h
      refine ⟨by simp, fun d hd => ?_⟩
      rcases List.mem_cons.mp hd with h | h
      · subst h; exact hc
      · have := List.mem_takeWhile_imp h
        simpa using this
    · exact ih h

/-- Re-splitting a space-join of words recovers the words. -/
theorem pyWords_joinSp : ∀ {ws : List Str}, (∀ w ∈ ws, IsWord w) →
    pyWords (joinSp ws) = ws := by
  intro ws
  induction ws with
  | nil => intro _; rw [joinSp_nil, pyWords_nil]
  | cons w ws ih =>
    intro h
    cases ws with
    | nil =>
      rw [joinSp_singleton]
      exact pyWords_of_isWord (h w (List.mem_cons_self w _))
    | cons x ws' =>
      rw [joinSp_cons_cons, pyWords_append_ws (by rfl),
        pyWords_of_isWord (h w (List.mem_cons_self w _)),
        ih fun v hv => h v (List.mem_cons_of_mem w hv)]
      rfl

/-! ### Paragraph-splitting lemmas -/

theorem splitParas_nil : splitParas [] = [[]] := rfl

theorem splitParas_cut (cs : Str) :
    splitParas ('\n' :: '\n' :: cs) = [] :: splitParas cs := rfl

theorem splitParas_ne_nil : ∀ l : Str, splitParas l ≠ [] := by
  intro l
  induction l using splitParas.induct with
  | case1 => simp [splitParas_nil]
  | case2 cs ih => simp [splitParas_cut]
  | case3 a b h ih ih2 => exact absurd ih ih2
  | case4 a b hnot d t heq ih =>
    rw [splitParas]
    · rw [heq]; simp
    · exact hnot

/-- Joining the paragraph split with a blank line recovers the text:
"\n\n".join(text.split("\n\n")) == text. -/
theorem joinParas_splitParas : ∀ l : Str, joinParas (splitParas l) = l := by
  intro l
  induction l using splitParas.induct with
  | case1 => rw [splitParas_nil, joinParas_singleton]
  | case2 cs ih =>
    rw [splitParas_cut]
    obtain ⟨d, t, heq⟩ : ∃ d t, splitParas cs = d :: t := by
      cases h : splitParas cs with
      | nil => exact absurd h (splitParas_ne_nil cs)
      | cons d t => exact ⟨d, t, rfl⟩
    rw [heq] at ih ⊢
    rw [joinParas_cons_cons]
    simp [ih]
  | case3 a b h ih ih2 => exact absurd ih (splitParas_ne_nil b)
  | case4 a b hnot d t heq ih =>
    rw [splitParas]
    · rw [heq]
      rw [heq] at ih
      cases t with
      | nil => rw [joinParas_singleton] at ih ⊢; rw [ih]
      | cons q qs =>
        rw [joinParas_cons_cons] at ih ⊢
        rw [List.cons_append]
        exact congrArg (List.cons a) ih
    · exact hnot

/-- The words of a "\n\n"-join are the concatenation of the words of
the parts (the separator is whitespace, so no word spans it). -/
theorem pyWords_joinParas : ∀ parts : List Str,
    pyWords (joinParas parts) = (parts.map pyWords).flatten := by
  intro parts
  induction parts with
  | nil => rw [joinParas_nil, pyWords_nil]; rfl
  | cons p ps ih =>
    cases ps with
    | nil => rw [joinParas_singleton]; simp
    | cons q qs =>
      rw [joinParas_cons_cons, pyWords_append_ws (by rfl),
        pyWords_cons_ws (by rfl), ih]
      rfl

/-- The words of a text are the concatenation of the words of its
paragraphs. -/
theorem pyWords_splitParas (l : Str) :
    ((splitParas l).map pyWords).flatten = pyWords l := by
  rw [← pyWords_joinParas, joinParas_splitParas]

/-- Dropping blank paragraphs loses no words. -/
theorem words_filter_hasContent : ∀ parts : List Str,
    (((parts.filter hasContent).map pyWords)).flatten = ((parts.map pyWords)).flatten := by
  intro parts
  induction parts with
  | nil => rfl
  | cons p ps ih =>
    by_cases h : hasContent p
    · simp [List.filter_cons, h, ih]
    · have h' : hasContent p = false := by
        cases hh : hasContent p
        · rfl
        · exact absurd hh h
      simp [List.filter_cons, h', pyWords_eq_nil_of_not_hasContent h', ih]

theorem pyWords_ne_nil_of_hasContent : ∀ {p : Str}, hasContent p = true →
    pyWords p ≠ [] := by
  intro p
  induction p with
  | nil => intro h; simp [hasContent] at h
  | cons c cs ih =>
    intro h
    cases hc : isWS c with
    | true =>
      rw [pyWords_cons_ws hc]
      refine ih ?_
      simp only [hasContent, List.any_cons, hc] at h ⊢
      simpa using h
    | false =>
      rw [pyWords_cons_not_ws hc]
      simp

/-! ### Greedy packing lemmas -/

/-- Splitting a space-join into words yields exactly the words of the
parts, with no hypotheses on the parts. -/
theorem pyWords_joinSp_flatten : ∀ vs : List Str,
    pyWords (joinSp vs) = (vs.map pyWords).flatten := by
  intro vs
  induction vs with
  | nil => rw [joinSp_nil, pyWords_nil]; rfl
  | cons v vs ih =>
    cases vs with
    | nil => rw [joinSp_singleton]; simp
    | cons x xs =>
      rw [joinSp_cons_cons, pyWords_append_ws (by rfl), ih]
      rfl

theorem packWordsAux_nil (tc : Str → Nat) (maxT : Int) (i : Nat)
    (cur : List Str) (curLen : Nat) :
    packWordsAux tc maxT i [] cur curLen =
      if cur.isEmpty then [] else [⟨joinSp cur, 1, i⟩] := by
  rw [packWordsAux]

theorem packWordsAux_cons (tc : Str → Nat) (maxT : Int) (i : Nat)
    (w : Str) (ws cur : List Str) (curLen : Nat) :
    packWordsAux tc maxT i (w :: ws) cur curLen =
      if (curLen + tc w : Int) ≤ maxT then
        packWordsAux tc maxT i ws (cur ++ [w]) (curLen + tc w)
      else
        ⟨joinSp cur, 1, i⟩ :: packWordsAux tc maxT i ws [w] (tc w) := by
  rw [packWordsAux]

/-- Word preservation through the greedy pack: the words of the emitted
candidates are the pending current words followed by the remaining
input words. -/
theorem packWordsAux_words (tc : Str → Nat) (maxT : Int) (i : Nat) :
    ∀ ws cur : List Str, ∀ curLen : Nat, (∀ w ∈ cur, IsWord w) → (∀ w ∈ ws, IsWord w) →
      ((packWordsAux tc maxT i ws cur curLen).map (fun c => pyWords c.text)).flatten
        = cur ++ ws := by
  intro ws
  induction ws with
  | nil =>
    intro cur curLen hcur _
    rw [packWordsAux_nil]
    cases cur with
    | nil => simp
    | cons c cs =>
      rw [if_neg (by simp)]
      simp [pyWords_joinSp hcur]
  | cons w ws ih =>
    intro cur curLen hcur hws
    rw [packWordsAux_cons]
    by_cases h : (curLen + tc w : Int) ≤ maxT
    · rw [if_pos h, ih (cur ++ [w]) (curLen + tc w)]
      · simp
      · intro v hv
        rcases List.mem_append.mp hv with h' | h'
        · exact hcur v h'
        · rcases List.mem_singleton.mp h' with rfl
          exact hws v (List.mem_cons_self _ _)
      · exact fun v hv => hws v (List.mem_cons_of_mem _ hv)
    · rw [if_neg h]
      simp only [List.map_cons, List.flatten_cons]
      rw [ih [w] (tc w)
        (fun v hv => by rcases List.mem_singleton.mp hv with rfl; exact hws v (List.mem_cons_self _ _))
        (fun v hv => hws v (List.mem_cons_of_mem _ hv))]
      rw [pyWords_joinSp hcur]
      simp

/-- Budget preservation through the greedy pack: every emitted
candidate's token count fits the budget, except a candidate that is a
single word whose own token count exceeds it. -/
theorem packWordsAux_budget (tc : Str → Nat) (maxT : Int) (i : Nat)
    (hsub : ∀ vs : List Str, tc (joinSp vs) ≤ (vs.map tc).sum) :
    ∀ ws cur : List Str, ∀ curLen : Nat, (∀ w ∈ ws, IsWord w) → (∀ w ∈ cur, IsWord w) →
      curLen = (cur.map tc).sum →
      ((curLen : Int) ≤ maxT ∨ ∃ w, cur = [w]) →
      ∀ cand ∈ packWordsAux tc maxT i ws cur curLen,
        (tc cand.text : Int) ≤ maxT ∨
          (pyWords cand.text = [cand.text] ∧ maxT < (tc cand.text : Int)) := by
  have emit : ∀ cur : List Str, ∀ curLen : Nat, (∀ w ∈ cur, IsWord w) →
      curLen = (cur.map tc).sum →
      ((curLen : Int) ≤ maxT ∨ ∃ w, cur = [w]) →
      (tc (joinSp cur) : Int) ≤ maxT ∨
        (pyWords (joinSp cur) = [joinSp cur] ∧ maxT < (tc (joinSp cur) : Int)) := by
    intro cur curLen hcur hlen hok
    rcases hok with hle | ⟨w, rfl⟩
    · left
      have h1 : (tc (joinSp cur) : Int) ≤ (curLen : Int) := by
        rw [hlen]
        exact_mod_cast hsub cur
      exact le_trans h1 hle
    · rw [joinSp_singleton]
      by_cases h : (tc w : Int) ≤ maxT
      · exact Or.inl h
      · exact Or.inr ⟨pyWords_of_isWord (hcur w (List.mem_singleton_self w)),
          lt_of_not_le h⟩
  intro ws
  induction ws with
  | nil =>
    intro cur curLen _ hcur hlen hok cand hcand
    rw [packWordsAux_nil] at hcand
    cases cur with
    | nil => simp at hcand
    | cons c cs =>
      rw [if_neg (by simp)] at hcand
      rcases List.mem_singleton.mp hcand with rfl
      exact emit _ curLen hcur hlen hok
  | cons w ws ih =>
    intro cur curLen hws hcur hlen hok cand hcand
    rw [packWordsAux_cons] at hcand
    by_cases h : (curLen + tc w : Int) ≤ maxT
    · rw [if_pos h] at hcand
      refine ih (cur ++ [w]) (curLen + tc w)
        (fun v hv => hws v (List.mem_cons_of_mem _ hv)) ?_ ?_ (Or.inl ?_) cand hcand
      · intro v hv
        rcases List.mem_append.mp hv with h' | h'
        · exact hcur v h'
        · rcases List.mem_singleton.mp h' with rfl
          exact hws v (List.mem_cons_self _ _)
      · simp [hlen]
      · exact_mod_cast h
    · rw [if_neg h] at hcand
      rcases List.mem_cons.mp hcand with rfl | hmem
      · exact emit _ curLen hcur hlen hok
      · refine ih [w] (tc w) (fun v hv => hws v (List.mem_cons_of_mem _ hv))
          ?_ (by simp) (Or.inr ⟨w, rfl⟩) cand hmem
        intro v hv
        rcases List.mem_singleton.mp hv with rfl
        exact hws v (List.mem_cons_self _ _)

/-! ### chunk_text lemmas -/

theorem chunkLoop_nil (tc : Str → Nat) (maxT : Int) (i : Nat) :
    chunkLoop tc maxT i [] = [] := by
  rw [chunkLoop]

theorem chunkLoop_cons (tc : Str → Nat) (maxT : Int) (i : Nat) (p : Str) (ps : List Str) :
    chunkLoop tc maxT i (p :: ps) =
      (if (tc p : Int) ≤ maxT then [⟨p, 1, i⟩]
       else packWordsAux tc maxT i (pyWords p) [] 0) ++ chunkLoop tc maxT (i + 1) ps := by
  rw [chunkLoop]

theorem chunkLoop_words (tc : Str → Nat) (maxT : Int) :
    ∀ ps : List Str, ∀ i : Nat,
      ((chunkLoop tc maxT i ps).map (fun c => pyWords c.text)).flatten
        = (ps.map pyWords).flatten := by
  intro ps
  induction ps with
  | nil => intro i; rw [chunkLoop_nil]; rfl
  | cons p ps ih =>
    intro i
    rw [chunkLoop_cons]
    simp only [List.map_append, List.flatten_append, ih (i + 1)]
    by_cases h : (tc p : Int) ≤ maxT
    · rw [if_pos h]; simp
    · rw [if_neg h,
        packWordsAux_words tc maxT i (pyWords p) [] 0 (by simp)
          (fun w hw => isWord_of_mem_pyWords hw)]
      simp

theorem chunkLoop_budget (tc : Str → Nat) (maxT : Int)
    (hmax : 0 < maxT)
    (hsub : ∀ vs : List Str, tc (joinSp vs) ≤ (vs.map tc).sum) :
    ∀ ps : List Str, ∀ i : Nat, ∀ cand ∈ chunkLoop tc maxT i ps,
      (tc cand.text : Int) ≤ maxT ∨
        (pyWords cand.text = [cand.text] ∧ maxT < (tc cand.text : Int)) := by
  intro ps
  induction ps with
  | nil => intro i cand hcand; rw [chunkLoop_nil] at hcand; simp at hcand
  | cons p ps ih =>
    intro i cand hcand
    rw [chunkLoop_cons] at hcand
    rcases List.mem_append.mp hcand with hmem | hmem
    · by_cases h : (tc p : Int) ≤ maxT
      · rw [if_pos h] at hmem
        rcases List.mem_singleton.mp hmem with rfl
        exact Or.inl h
      · rw [if_neg h] at hmem
        exact packWordsAux_budget tc maxT i hsub (pyWords p) [] 0
          (fun w hw => isWord_of_mem_pyWords hw) (by simp) (by simp)
          (Or.inl (le_of_lt hmax)) cand hmem
    · exact ih (i + 1) cand hmem

/-- A tokenizer instance for concrete checks: each word is one token
(a valid instance of the spec's tokenizer contract). -/
def wordCountTok (s : Str) : Nat :=
  (pyWords s).length

theorem wordCountTok_joinSp (vs : List Str) :
    wordCountTok (joinSp vs) ≤ (vs.map wordCountTok).sum := by
  unfold wordCountTok
  rw [pyWords_joinSp_flatten, List.length_flatten, List.map_map]
  exact Nat.le_refl _

/-- C1: for every input text and every max_tokens > 0 (and any
tokenizer whose token count of a space-join is at most the sum of the
parts' counts, as holds for tokenizers that split on words), each
candidate returned by chunk_text has token count at most max_tokens,
except a candidate consisting of a single word whose own token count
exceeds max_tokens, which is passed through unsplit; and concatenating
the words of all output candidates in output order reproduces the word
sequence of the input exactly. -/
theorem C1_chunk_text_budget_and_word_preservation
    (tc : Str → Nat) (maxT : Int) (text : Str)
    (hmax : 0 < maxT)
    (hsub : ∀ vs : List Str, tc (joinSp vs) ≤ (vs.map tc).sum) :
    (∀ cand ∈ chunk_text tc maxT text,
        (tc cand.text : Int) ≤ maxT ∨
          (pyWords cand.text = [cand.text] ∧ maxT < (tc cand.text : Int))) ∧
      ((chunk_text tc maxT text).map (fun c => pyWords c.text)).flatten
        = pyWords text := by
  constructor
  · exact fun cand hcand => chunkLoop_budget tc maxT hmax hsub _ 0 cand hcand
  · unfold chunk_text
    rw [chunkLoop_words tc maxT (chunkParagraphs text) 0]
    unfold chunkParagraphs
    rw [words_filter_hasContent, pyWords_splitParas]

/-- Witness for C1 at a concrete tokenizer, budget and text. -/
theorem C1_witness :
    (0 : Int) < 2 ∧
      (∀ vs : List Str, wordCountTok (joinSp vs) ≤ (vs.map wordCountTok).sum) ∧
      ((∀ cand ∈ chunk_text wordCountTok 2 ("one two three\n\nfour").toList,
          (wordCountTok cand.text : Int) ≤ 2 ∨
            (pyWords cand.text = [cand.text] ∧ 2 < (wordCountTok cand.text : Int))) ∧
        ((chunk_text wordCountTok 2 ("one two three\n\nfour").toList).map
            (fun c => pyWords c.text)).flatten
          = pyWords ("one two three\n\nfour").toList) :=
  ⟨by decide, wordCountTok_joinSp,
    C1_chunk_text_budget_and_word_preservation wordCountTok 2
      ("one two three\n\nfour").toList (by decide) wordCountTok_joinSp⟩

/-! ### The empty-candidate behaviour (C10) and the missing
validation of non-positive budgets (C9) -/

/-- A tokenizer instance counting one token per character. -/
def charCountTok (s : Str) : Nat :=
  s.length

theorem chunkLoop_empty_of_bad_para (tc : Str → Nat) (maxT : Int) :
    ∀ ps : List Str, ∀ i : Nat, ∀ p ∈ ps, ∀ w : Str,
      maxT < (tc p : Int) → (pyWords p).head? = some w → maxT < (tc w : Int) →
      ∃ cand ∈ chunkLoop tc maxT i ps, cand.text = [] := by
  intro ps
  induction ps with
  | nil => intro i p hp; simp at hp
  | cons q ps ih =>
    intro i p hp w hpara hw hwt
    rw [chunkLoop_cons]
    rcases List.mem_cons.mp hp with rfl | hmem
    · obtain ⟨rest, hrest⟩ : ∃ rest, pyWords p = w :: rest := by
        cases h : pyWords p with
        | nil => rw [h] at hw; simp at hw
        | cons x xs =>
          rw [h] at hw
          simp only [List.head?_cons, Option.some.injEq] at hw
          exact ⟨xs, by rw [hw]⟩
      rw [if_neg (not_le.mpr hpara), hrest, packWordsAux_cons]
      rw [if_neg (by simpa using not_le.mpr hwt)]
      exact ⟨⟨joinSp [], 1, i⟩, List.mem_append_left _ (List.mem_cons_self _ _),
        joinSp_nil⟩
    · obtain ⟨cand, hc, he⟩ := ih (i + 1) p hmem w hpara hw hwt
      exact ⟨cand, List.mem_append_right _ hc, he⟩

/-- C10: whenever a paragraph exceeds the token budget and its first
word alone already exceeds the budget, the overflow branch closes the
still-empty current candidate, so chunk_text emits a candidate whose
text is the empty string — contradicting the data model's requirement
that chunk content be non-empty. -/
theorem C10_empty_candidate (tc : Str → Nat) (maxT : Int) (text : Str)
    (p w : Str)
    (hp : p ∈ chunkParagraphs text)
    (hpara : maxT < (tc p : Int))
    (hw : (pyWords p).head? = some w)
    (hwt : maxT < (tc w : Int)) :
    ∃ cand ∈ chunk_text tc maxT text, cand.text = [] :=
  chunkLoop_empty_of_bad_para tc maxT (chunkParagraphs text) 0 p hp w hpara hw hwt

/-- Witness for C10: with a one-token-per-character tokenizer and
budget 2, the four-character single word "aaaa" makes chunk_text emit
an empty candidate (followed by the oversized word itself). -/
theorem C10_witness :
    "aaaa".toList ∈ chunkParagraphs "aaaa".toList ∧
      (2 : Int) < (charCountTok "aaaa".toList : Int) ∧
      (pyWords "aaaa".toList).head? = some "aaaa".toList ∧
      (∃ cand ∈ chunk_text charCountTok 2 "aaaa".toList, cand.text = []) :=
  ⟨by decide, by decide, by decide,
    C10_empty_candidate charCountTok 2 "aaaa".toList "aaaa".toList "aaaa".toList
      (by decide) (by decide) (by decide) (by decide)⟩

/-- C9 counterexample: with max_tokens = -1 (and with max_tokens = 0,
silently replaced by the default), chunk_text produces chunks instead
of reporting a validation failure. -/
theorem C9_counterexample :
    chunk_text_entry charCountTok 8191 (some (-1)) "hello".toList
        = [⟨[], 1, 0⟩, ⟨"hello".toList, 1, 0⟩] ∧
      chunk_text_entry charCountTok 8191 (some (-1)) "hello".toList ≠ [] ∧
      chunk_text_entry charCountTok 8191 (some 0) "hello".toList
        = [⟨"hello".toList, 1, 0⟩] ∧
      chunk_text_entry charCountTok 8191 (some 0) "hello".toList ≠ [] := by
  refine ⟨by decide, by decide, by decide, by decide⟩

/-- The shape chunk_text produces for a negative budget: each non-blank
paragraph yields an empty leading candidate followed by one candidate
per word. -/
def negLoop : Nat → List Str → List Candidate
  | _, [] => []
  | i, p :: ps =>
    (⟨[], 1, i⟩ :: (pyWords p).map (fun w => ⟨w, 1, i⟩)) ++ negLoop (i + 1) ps

theorem packWordsAux_neg (tc : Str → Nat) (maxT : Int) (i : Nat)
    (hneg : maxT < 0) :
    ∀ ws cur : List Str, ∀ curLen : Nat, cur ≠ [] →
      packWordsAux tc maxT i ws cur curLen
        = ⟨joinSp cur, 1, i⟩ :: ws.map (fun w => ⟨w, 1, i⟩) := by
  intro ws
  induction ws with
  | nil =>
    intro cur curLen hcur
    rw [packWordsAux_nil, if_neg (by simpa using hcur)]
    rfl
  | cons w ws ih =>
    intro cur curLen hcur
    rw [packWordsAux_cons, if_neg ?side]
    case side =>
      intro hle
      have : (0 : Int) ≤ (curLen : Int) + (tc w : Int) := by positivity
      omega
    rw [ih [w] (tc w) (by simp), joinSp_singleton]
    rfl

theorem chunkLoop_neg (tc : Str → Nat) (maxT : Int) (hneg : maxT < 0) :
    ∀ ps : List Str, ∀ i : Nat, (∀ p ∈ ps, hasContent p = true) →
      chunkLoop tc maxT i ps = negLoop i ps := by
  intro ps
  induction ps with
  | nil => intro i _; rw [chunkLoop_nil]; rfl
  | cons p ps ih =>
    intro i hps
    rw [chunkLoop_cons, negLoop]
    rw [if_neg (by
      intro hle
      have : (0 : Int) ≤ (tc p : Int) := by positivity
      omega)]
    rw [ih (i + 1) (fun q hq => hps q (List.mem_cons_of_mem _ hq))]
    have hne : pyWords p ≠ [] :=
      pyWords_ne_nil_of_hasContent (hps p (List.mem_cons_self _ _))
    cases h : pyWords p with
    | nil => exact absurd h hne
    | cons w ws =>
      rw [packWordsAux_cons]
      rw [if_neg (by
        intro hle
        have : (0 : Int) ≤ ((0 : Nat) : Int) + (tc w : Int) := by positivity
        omega)]
      rw [packWordsAux_neg tc maxT i hneg ws [w] (tc w) (by simp), joinSp_singleton,
        joinSp_nil]
      rfl

/-- C9 amended: chunk_text performs no validation of a non-positive
max_tokens.  A budget of 0 (falsy in Python) is silently replaced by
the configured default, None falls back to the default, and a negative
budget is used as-is: chunking proceeds and every non-blank paragraph
yields an empty leading candidate followed by one candidate per word;
no validation error is reported. -/
theorem C9_no_validation_of_nonpositive_budget (tc : Str → Nat)
    (defaultMax : Int) (text : Str) :
    chunk_text_entry tc defaultMax (some 0) text = chunk_text tc defaultMax text ∧
      chunk_text_entry tc defaultMax none text = chunk_text tc defaultMax text ∧
      ∀ v : Int, v < 0 →
        chunk_text_entry tc defaultMax (some v) text
          = negLoop 0 (chunkParagraphs text) := by
  refine ⟨rfl, rfl, fun v hv => ?_⟩
  show chunk_text tc (resolve_max_tokens defaultMax (some v)) text = _
  have hres : resolve_max_tokens defaultMax (some v) = v := by
    simp [resolve_max_tokens]
    omega
  rw [hres]
  exact chunkLoop_neg tc v hv (chunkParagraphs text) 0
    (fun p hp => List.of_mem_filter hp)

/-- Witness for C9's amended statement at a concrete tokenizer, default
and text, instantiating the negative branch at -1. -/
theorem C9_no_validation_witness :
    chunk_text_entry charCountTok 8191 (some 0) "ab cd".toList
        = chunk_text charCountTok 8191 "ab cd".toList ∧
      ((-1 : Int) < 0 ∧
        chunk_text_entry charCountTok 8191 (some (-1)) "ab cd".toList
          = negLoop 0 (chunkParagraphs "ab cd".toList)) :=
  ⟨(C9_no_validation_of_nonpositive_budget charCountTok 8191 "ab cd".toList).1,
    by decide,
    (C9_no_validation_of_nonpositive_budget charCountTok 8191 "ab cd".toList).2.2
      (-1) (by decide)⟩

/-! ### The chunk store

The database package (database.models.Chunk, open_session) is
repository code that is not under src/; only its callers are.  The
record and the transactional session semantics below are modelled from
the spec (sections 3 and 5): an ordered list of chunk records is the
store, a committed transaction replaces the store, a rolled-back one
leaves it unchanged.  Embedding vectors are modelled over ℚ. -/

/-- The meta dict store_chunks builds for plain-text chunks. -/
structure ChunkMeta where
  page_numbers : List Nat
  source : Str
  chunk_size : Int
deriving DecidableEq, Repr

/-- Modelled from the spec: the persisted chunk record of
database.models.Chunk (spec section 3, data model). -/
structure Chunk where
  id : Nat
  chunk_content : Str
  chunk_title : Str
  page_number : Nat
  embedding : Option (List ℚ)
  is_embedded : Bool
  meta : ChunkMeta
deriving DecidableEq, Repr

/-- The Chunk record store_chunks builds for one plain-text candidate
(the is_docling=False branch): fresh id, content from the candidate,
title = source, page_number from the candidate's page_no, is_embedded
False, no embedding. -/
def mkChunk (source : Str) (maxT : Int) (idn : Nat) (cand : Candidate) : Chunk :=
  { id := idn
    chunk_content := cand.text
    chunk_title := source
    page_number := cand.page_no
    embedding := none
    is_embedded := false
    meta := ⟨[cand.page_no], source, maxT⟩ }

/-- The batch of records one store_chunks call adds, pairing each
candidate with its freshly drawn id (uuid4 is modelled as a supplied
list of fresh ids). -/
def newChunks (source : Str) (maxT : Int) (ids : List Nat)
    (cands : List Candidate) : List Chunk :=
  (ids.zip cands).map (fun p => mkChunk source maxT p.1 p.2)

/-- DocumentChunker.store_chunks for plain-text candidates: inside one
session every candidate is added, then a single commit persists them
all; commitOk models whether that commit succeeds.  On success the
store gains the whole batch and len(chunks) is returned; a failed
commit rolls the session back (store unchanged) and the exception
propagates (modelled as none). -/
def store_chunks (source : Str) (maxT : Int) (ids : List Nat)
    (cands : List Candidate) (commitOk : Bool) (store : List Chunk) :
    List Chunk × Option Nat :=
  if commitOk then (store ++ newChunks source maxT ids cands, some cands.length)
  else (store, none)

/-- C5: every store_chunks call persists its chunks as one atomic
batch — either every candidate is written or none (never a partial
source) — and every newly persisted chunk starts with is_embedded
false, no embedding, and a freshly assigned id. -/
theorem C5_store_chunks_atomic (source : Str) (maxT : Int) (ids : List Nat)
    (cands : List Candidate) (commitOk : Bool) (store : List Chunk)
    (hlen : ids.length = cands.length)
    (hnodup : ids.Nodup)
    (hfresh : ∀ i ∈ ids, i ∉ store.map Chunk.id) :
    (commitOk = true →
      store_chunks source maxT ids cands commitOk store
        = (store ++ newChunks source maxT ids cands, some cands.length)) ∧
      (commitOk = false →
        store_chunks source maxT ids cands commitOk store = (store, none)) ∧
      (∀ c ∈ newChunks source maxT ids cands,
        c.is_embedded = false ∧ c.embedding = none) ∧
      (newChunks source maxT ids cands).map Chunk.id = ids ∧
      ((newChunks source maxT ids cands).map Chunk.id).Nodup ∧
      (∀ c ∈ newChunks source maxT ids cands, c.id ∉ store.map Chunk.id) := by
  have hmap : (newChunks source maxT ids cands).map Chunk.id = ids := by
    unfold newChunks
    rw [List.map_map]
    have : (Chunk.id ∘ fun p : Nat × Candidate => mkChunk source maxT p.1 p.2)
        = Prod.fst := by
      funext p
      rfl
    rw [this]
    exact List.map_fst_zip ids cands (le_of_eq hlen)
  refine ⟨fun h => by simp [store_chunks, h], fun h => by simp [store_chunks, h],
    ?_, hmap, by rw [hmap]; exact hnodup, ?_⟩
  · intro c hc
    unfold newChunks at hc
    obtain ⟨p, _, rfl⟩ := List.mem_map.mp hc
    exact ⟨rfl, rfl⟩
  · intro c hc
    have : c.id ∈ (newChunks source maxT ids cands).map Chunk.id :=
      List.mem_map_of_mem Chunk.id hc
    rw [hmap] at this
    exact hfresh c.id this

/-- Witness for C5 at a concrete batch and store. -/
theorem C5_witness :
    [7, 8].length = [(⟨"ab".toList, 1, 0⟩ : Candidate), ⟨"cd".toList, 1, 1⟩].length ∧
      store_chunks "s".toList 10 [7, 8]
          [⟨"ab".toList, 1, 0⟩, ⟨"cd".toList, 1, 1⟩] true []
        = ([mkChunk "s".toList 10 7 ⟨"ab".toList, 1, 0⟩,
            mkChunk "s".toList 10 8 ⟨"cd".toList, 1, 1⟩], some 2) ∧
      (∀ c ∈ newChunks "s".toList 10 [7, 8]
          [⟨"ab".toList, 1, 0⟩, ⟨"cd".toList, 1, 1⟩],
        c.is_embedded = false ∧ c.embedding = none) :=
  ⟨rfl, by decide,
    (C5_store_chunks_atomic "s".toList 10 [7, 8]
      [⟨"ab".toList, 1, 0⟩, ⟨"cd".toList, 1, 1⟩] true [] (by decide) (by decide)
      (by decide)).2.2.1⟩

/-! ### Retrieval -/

/-- Squared L2 distance between two vectors (order-equivalent to the
L2 distance pgvector's l2_distance sorts by, and rational-valued). -/
def l2sq (a b : List ℚ) : ℚ :=
  ((a.zip b).map (fun p => (p.1 - p.2) ^ 2)).sum

/-- The sort key of the ORDER BY clause: distance from a chunk's
embedding (treated as the zero-length vector when absent) to the query
embedding. -/
def distKey (q : List ℚ) (c : Chunk) : ℚ :=
  l2sq (c.embedding.getD []) q

/-- The ORDER BY comparison relation. -/
def distLE (q : List ℚ) (a b : Chunk) : Prop :=
  distKey q a ≤ distKey q b

instance (q : List ℚ) : DecidableRel (distLE q) :=
  fun a b => inferInstanceAs (Decidable (distKey q a ≤ distKey q b))

instance (q : List ℚ) : IsTotal Chunk (distLE q) :=
  ⟨fun a b => le_total (distKey q a) (distKey q b)⟩

instance (q : List ℚ) : IsTrans Chunk (distLE q) :=
  ⟨fun _ _ _ hab hbc => le_trans hab hbc⟩

/-- Retriever.find_relevant_chunks with the query embedding already
computed (create_query_embedding is one external embedding call):
SELECT chunks WHERE is_embedded ORDER BY l2_distance(embedding, q)
LIMIT k, over the store, with the store's stable order breaking
ties. -/
def find_relevant_chunks (qemb : List ℚ) (k : Nat) (store : List Chunk) :
    List Chunk :=
  (List.insertionSort (distLE qemb) (store.filter (fun c => c.is_embedded))).take k

/-- C2: find_relevant_chunks returns at most k chunks, all with
is_embedded true, in ascending distance order; if at most k embedded
chunks exist it returns exactly the embedded chunks, and with zero
embedded chunks it returns the empty sequence rather than an error. -/
theorem C2_find_relevant_chunks (qemb : List ℚ) (k : Nat) (store : List Chunk) :
    (find_relevant_chunks qemb k store).length ≤ k ∧
      (∀ c ∈ find_relevant_chunks qemb k store, c.is_embedded = true) ∧
      List.Sorted (distLE qemb) (find_relevant_chunks qemb k store) ∧
      ((store.filter (fun c => c.is_embedded)).length ≤ k →
        (find_relevant_chunks qemb k store).length
            = (store.filter (fun c => c.is_embedded)).length ∧
          ∀ c, c ∈ find_relevant_chunks qemb k store
            ↔ c ∈ store.filter (fun c => c.is_embedded)) ∧
      (store.filter (fun c => c.is_embedded) = [] →
        find_relevant_chunks qemb k store = []) := by
  have hperm := List.perm_insertionSort (distLE qemb)
    (store.filter (fun c => c.is_embedded))
  refine ⟨List.length_take_le k _, ?_, ?_, ?_, ?_⟩
  · intro c hc
    have h1 : c ∈ List.insertionSort (distLE qemb)
        (store.filter (fun c => c.is_embedded)) := List.take_subset k _ hc
    have h2 : c ∈ store.filter (fun c => c.is_embedded) := hperm.mem_iff.mp h1
    simpa using (List.mem_filter.mp h2).2
  · exact List.Pairwise.sublist (List.take_sublist k _)
      (List.sorted_insertionSort (distLE qemb) _)
  · intro hle
    have hlen : (List.insertionSort (distLE qemb)
        (store.filter (fun c => c.is_embedded))).length
          = (store.filter (fun c => c.is_embedded)).length := hperm.length_eq
    have htake : find_relevant_chunks qemb k store
        = List.insertionSort (distLE qemb) (store.filter (fun c => c.is_embedded)) := by
      unfold find_relevant_chunks
      exact List.take_of_length_le (by rw [hlen]; exact hle)
    constructor
    · rw [htake, hlen]
    · intro c
      rw [htake, hperm.mem_iff]
  · intro hnil
    unfold find_relevant_chunks
    rw [hnil]
    simp [List.insertionSort]

/-- A concrete store for retrieval checks: two embedded chunks at
distances 0 and 2 from the query [1, 0], one unembedded chunk. -/
def retrStore : List Chunk :=
  [ { id := 1, chunk_content := "x".toList, chunk_title := "A".toList,
      page_number := 0, embedding := some [1, 0], is_embedded := true,
      meta := ⟨[1], "A".toList, 10⟩ },
    { id := 2, chunk_content := "y".toList, chunk_title := "A".toList,
      page_number := 1, embedding := some [0, 1], is_embedded := true,
      meta := ⟨[1], "A".toList, 10⟩ },
    { id := 3, chunk_content := "z".toList, chunk_title := "B".toList,
      page_number := 2, embedding := none, is_embedded := false,
      meta := ⟨[1], "B".toList, 10⟩ } ]

/-- Witness for C2 at the concrete store, discharging the
fewer-than-k hypothesis at k = 5. -/
theorem C2_witness :
    (retrStore.filter (fun c => c.is_embedded)).length ≤ 5 ∧
      (find_relevant_chunks [1, 0] 5 retrStore).length
          = (retrStore.filter (fun c => c.is_embedded)).length ∧
      (∀ c ∈ find_relevant_chunks [1, 0] 5 retrStore, c.is_embedded = true) :=
  ⟨by decide,
    ((C2_find_relevant_chunks [1, 0] 5 retrStore).2.2.2.1 (by decide)).1,
    (C2_find_relevant_chunks [1, 0] 5 retrStore).2.1⟩

/-! ### Embedding pending chunks -/

/-- Fuel-driven worker for chunksOf (fuel only makes the recursion
structural; it never runs out when it starts at the list's length). -/
def chunksOfF {α : Type} : Nat → Nat → List α → List (List α)
  | _, _, [] => []
  | 0, _, _ :: _ => []
  | fuel + 1, bs, x :: xs =>
    if bs = 0 then []
    else (x :: xs).take bs :: chunksOfF fuel bs ((x :: xs).drop bs)

/-- The batch partition of range(0, n, batch_size): consecutive slices
chunks[i : i + batch_size]. -/
def chunksOf {α : Type} (bs : Nat) (l : List α) : List (List α) :=
  chunksOfF l.length bs l

theorem drop_length_le_cons {α : Type} (bs : Nat) (x : α) (xs : List α)
    (hbs : bs ≠ 0) : ((x :: xs).drop bs).length ≤ xs.length := by
  rw [List.length_drop]
  simp only [List.length_cons]
  omega

theorem chunksOfF_congr {α : Type} : ∀ f1 f2 bs : Nat, ∀ l : List α,
    l.length ≤ f1 → l.length ≤ f2 → chunksOfF f1 bs l = chunksOfF f2 bs l := by
  intro f1
  induction f1 with
  | zero =>
    intro f2 bs l h1 _
    cases l with
    | nil => cases f2 <;> rfl
    | cons x xs => simp at h1
  | succ g ih =>
    intro f2 bs l h1 h2
    cases l with
    | nil => cases f2 <;> rfl
    | cons x xs =>
      cases f2 with
      | zero => simp at h2
      | succ h =>
        simp only [chunksOfF]
        by_cases hbs : bs = 0
        · rw [if_pos hbs, if_pos hbs]
        · rw [if_neg hbs, if_neg hbs]
          refine congrArg _ (ih h bs _ ?_ ?_)
          · exact Nat.le_trans (drop_length_le_cons bs x xs hbs)
              (Nat.le_of_succ_le_succ h1)
          · exact Nat.le_trans (drop_length_le_cons bs x xs hbs)
              (Nat.le_of_succ_le_succ h2)

theorem chunksOf_nil {α : Type} (bs : Nat) : chunksOf bs ([] : List α) = [] := rfl

theorem chunksOf_cons {α : Type} (bs : Nat) (x : α) (xs : List α) (hbs : 0 < bs) :
    chunksOf bs (x :: xs)
      = (x :: xs).take bs :: chunksOf bs ((x :: xs).drop bs) := by
  show chunksOfF (x :: xs).length bs (x :: xs) = _
  simp only [List.length_cons, chunksOfF, if_neg (Nat.pos_iff_ne_zero.mp hbs)]
  exact congrArg _ (chunksOfF_congr _ _ bs _
    (drop_length_le_cons bs x xs (Nat.pos_iff_ne_zero.mp hbs)) (Nat.le_refl _))

theorem chunksOf_flatten {α : Type} (bs : Nat) (hbs : 0 < bs) :
    ∀ l : List α, (chunksOf bs l).flatten = l
  | [] => by rw [chunksOf_nil]; rfl
  | x :: xs => by
    rw [chunksOf_cons bs x xs hbs, List.flatten_cons,
      chunksOf_flatten bs hbs ((x :: xs).drop bs), List.take_append_drop]
termination_by l => l.length
decreasing_by
  simp only [List.length_cons]
  exact Nat.lt_succ_of_le (drop_length_le_cons bs x xs (Nat.pos_iff_ne_zero.mp hbs))

theorem chunksOf_length_le {α : Type} (bs : Nat) (hbs : 0 < bs) :
    ∀ l : List α, ∀ b ∈ chunksOf bs l, b.length ≤ bs
  | [] => by intro b hb; rw [chunksOf_nil] at hb; simp at hb
  | x :: xs => by
    intro b hb
    rw [chunksOf_cons bs x xs hbs] at hb
    rcases List.mem_cons.mp hb with rfl | hmem
    · exact List.length_take_le bs (x :: xs)
    · exact chunksOf_length_le bs hbs ((x :: xs).drop bs) b hmem
termination_by l => l.length
decreasing_by
  simp only [List.length_cons]
  exact Nat.lt_succ_of_le (drop_length_le_cons bs x xs (Nat.pos_iff_ne_zero.mp hbs))

/-- The per-chunk mutation of a committed embedding batch: if this
chunk's id received a vector, set embedding and is_embedded together;
otherwise leave the record unchanged. -/
def setEmbedded (upds : List (Nat × List ℚ)) (c : Chunk) : Chunk :=
  match upds.lookup c.id with
  | some v => { c with embedding := some v, is_embedded := true }
  | none => c

/-- The store after committing one batch's mutations. -/
def markEmbedded (store : List Chunk) (upds : List (Nat × List ℚ)) : List Chunk :=
  store.map (setEmbedded upds)

/-- Embedder.process_pending_embeddings' per-batch loop.  embed models
self.client.embeddings.create on the batch's texts (none = the call
raised); commits models whether the j-th session.commit succeeds.  A
failure rolls the session back to the last committed state and
re-raises (modelled as outcome none, the raised exception); the count
is only returned when every batch commits. -/
def processBatches (embed : List Str → Option (List (List ℚ)))
    (commits : Nat → Bool) :
    List (List Chunk) → Nat → List Chunk → Nat → List Chunk × Option Nat
  | [], _, store, acc => (store, some acc)
  | b :: rest, j, store, acc =>
    match embed (b.map Chunk.chunk_content) with
    | none => (store, none)
    | some vs =>
      if commits j then
        processBatches embed commits rest (j + 1)
          (markEmbedded store ((b.zip vs).map (fun p => (p.1.id, p.2))))
          (acc + b.length)
      else (store, none)

/-- The pending snapshot: SELECT chunks WHERE is_embedded == False, in
stored order. -/
def pendingChunks (store : List Chunk) : List Chunk :=
  store.filter (fun c => !c.is_embedded)

/-- Embedder.process_pending_embeddings: snapshot the pending chunks,
return 0 if none, otherwise process them in consecutive batches of at
most batch_size, committing each batch as one transaction. -/
def process_pending_embeddings (embed : List Str → Option (List (List ℚ)))
    (commits : Nat → Bool) (bs : Nat) (store : List Chunk) :
    List Chunk × Option Nat :=
  let pending := pendingChunks store
  if pending.isEmpty then (store, some 0)
  else processBatches embed commits (chunksOf bs pending) 0 store 0

/-- An id is recorded as embedded in a store. -/
def idEmbedded (store : List Chunk) (i : Nat) : Bool :=
  store.any (fun c => c.id == i && c.is_embedded)

theorem setEmbedded_id (upds : List (Nat × List ℚ)) (c : Chunk) :
    (setEmbedded upds c).id = c.id := by
  unfold setEmbedded
  cases upds.lookup c.id <;> rfl

theorem setEmbedded_of_lookup_none {upds : List (Nat × List ℚ)} {c : Chunk}
    (h : upds.lookup c.id = none) : setEmbedded upds c = c := by
  unfold setEmbedded
  rw [h]

theorem setEmbedded_embedded_mono {upds : List (Nat × List ℚ)} {c : Chunk}
    (h : c.is_embedded = true) : (setEmbedded upds c).is_embedded = true := by
  unfold setEmbedded
  cases upds.lookup c.id <;> simp [h]

theorem lookup_eq_none_of_not_mem {β : Type} {upds : List (Nat × β)} {i : Nat}
    (h : i ∉ upds.map Prod.fst) : upds.lookup i = none := by
  induction upds with
  | nil => rfl
  | cons p ps ih =>
    simp only [List.map_cons, List.mem_cons] at h
    push_neg at h
    rw [List.lookup_cons]
    cases hbe : (i == p.1) with
    | true => exact absurd (by simpa using hbe) h.1
    | false => simpa using ih h.2

theorem lookup_isSome_of_mem {β : Type} {upds : List (Nat × β)} {i : Nat}
    (h : i ∈ upds.map Prod.fst) : ∃ v, upds.lookup i = some v := by
  induction upds with
  | nil => simp at h
  | cons p ps ih =>
    rw [List.lookup_cons]
    cases hbe : (i == p.1) with
    | true => exact ⟨p.2, by simp⟩
    | false =>
      simp only []
      refine ih ?_
      simp only [List.map_cons, List.mem_cons] at h
      rcases h with h | h
      · exact absurd (by simpa using h) (by simpa using hbe)
      · exact h

theorem markEmbedded_map_id (store : List Chunk) (upds : List (Nat × List ℚ)) :
    (markEmbedded store upds).map Chunk.id = store.map Chunk.id := by
  unfold markEmbedded
  rw [List.map_map]
  exact List.map_congr_left fun c _ => setEmbedded_id upds c

theorem idEmbedded_iff (store : List Chunk) (i : Nat) :
    idEmbedded store i = true ↔ ∃ c ∈ store, c.id = i ∧ c.is_embedded = true := by
  unfold idEmbedded
  rw [List.any_eq_true]
  constructor
  · rintro ⟨c, hc, hp⟩
    simp only [Bool.and_eq_true, beq_iff_eq] at hp
    exact ⟨c, hc, hp.1, hp.2⟩
  · rintro ⟨c, hc, h1, h2⟩
    exact ⟨c, hc, by simp [h1, h2]⟩

theorem eq_of_mem_of_nodup_ids : ∀ {store : List Chunk},
    (store.map Chunk.id).Nodup → ∀ {c1 c2 : Chunk}, c1 ∈ store → c2 ∈ store →
      c1.id = c2.id → c1 = c2 := by
  intro store
  induction store with
  | nil => intro _ c1 c2 h1; simp at h1
  | cons d ds ih =>
    intro hnd c1 c2 h1 h2 hid
    rw [List.map_cons, List.nodup_cons] at hnd
    rcases List.mem_cons.mp h1 with h1e | h1m
    · rcases List.mem_cons.mp h2 with h2e | h2m
      · rw [h1e, h2e]
      · exfalso
        apply hnd.1
        have h3 : c2.id ∈ ds.map Chunk.id := List.mem_map_of_mem Chunk.id h2m
        rw [← hid, h1e] at h3
        exact h3
    · rcases List.mem_cons.mp h2 with h2e | h2m
      · exfalso
        apply hnd.1
        have h3 : c1.id ∈ ds.map Chunk.id := List.mem_map_of_mem Chunk.id h1m
        rw [hid, h2e] at h3
        exact h3
      · exact ih hnd.2 h1m h2m hid

theorem idEmbedded_false_of_pending {store : List Chunk} {c : Chunk}
    (hnd : (store.map Chunk.id).Nodup) (hc : c ∈ store)
    (hp : c.is_embedded = false) : idEmbedded store c.id = false := by
  by_contra h
  have h' : idEmbedded store c.id = true := by
    cases hh : idEmbedded store c.id
    · exact absurd hh h
    · rfl
  obtain ⟨c', hc', hid, hemb⟩ := (idEmbedded_iff store c.id).mp h'
  have : c' = c := eq_of_mem_of_nodup_ids hnd hc' hc hid
  rw [this] at hemb
  rw [hemb] at hp
  exact absurd hp (by simp)

theorem idEmbedded_markEmbedded_mono {store : List Chunk}
    {upds : List (Nat × List ℚ)} {i : Nat}
    (h : idEmbedded store i = true) :
    idEmbedded (markEmbedded store upds) i = true := by
  obtain ⟨c, hc, hid, hemb⟩ := (idEmbedded_iff store i).mp h
  refine (idEmbedded_iff _ i).mpr ⟨setEmbedded upds c, List.mem_map_of_mem _ hc,
    by rw [setEmbedded_id, hid], setEmbedded_embedded_mono hemb⟩

theorem idEmbedded_markEmbedded_hit {store : List Chunk}
    {upds : List (Nat × List ℚ)} {c : Chunk}
    (hc : c ∈ store) (hid : c.id ∈ upds.map Prod.fst) :
    idEmbedded (markEmbedded store upds) c.id = true := by
  obtain ⟨v, hv⟩ := lookup_isSome_of_mem hid
  refine (idEmbedded_iff _ c.id).mpr ⟨setEmbedded upds c, List.mem_map_of_mem _ hc,
    setEmbedded_id upds c, ?_⟩
  unfold setEmbedded
  rw [hv]

theorem mem_markEmbedded_of_not_hit {store : List Chunk}
    {upds : List (Nat × List ℚ)} {c : Chunk}
    (hc : c ∈ store) (hid : c.id ∉ upds.map Prod.fst) :
    c ∈ markEmbedded store upds := by
  have : setEmbedded upds c = c := setEmbedded_of_lookup_none (lookup_eq_none_of_not_mem hid)
  exact this ▸ List.mem_map_of_mem _ hc

theorem batchUpds_map_fst {b : List Chunk} {vs : List (List ℚ)}
    (hlen : b.length ≤ vs.length) :
    ((b.zip vs).map (fun p => (p.1.id, p.2))).map Prod.fst = b.map Chunk.id := by
  rw [List.map_map]
  have h1 : (Prod.fst ∘ fun p : Chunk × List ℚ => (p.1.id, p.2))
      = Chunk.id ∘ Prod.fst := by
    funext p
    rfl
  rw [h1, ← List.map_map]
  rw [List.map_fst_zip b vs hlen]

/-- Full characterization of the per-batch loop: ids are preserved;
embedded chunks stay embedded; a returned count means every batch
committed, the count is the snapshot size plus the accumulator, and
every chunk ends embedded; a raised error identifies a failed batch k
such that all chunks of batches before k are embedded and no chunk of
batch k or any later batch is. -/
theorem processBatches_run (embed : List Str → Option (List (List ℚ)))
    (commits : Nat → Bool)
    (hembed : ∀ ts vs, embed ts = some vs → vs.length = ts.length) :
    ∀ batches : List (List Chunk), ∀ j : Nat, ∀ store : List Chunk, ∀ acc : Nat,
      (∀ c ∈ batches.flatten, c ∈ store ∧ c.is_embedded = false) →
      (store.map Chunk.id).Nodup →
      (batches.flatten.map Chunk.id).Nodup →
      (∀ c ∈ store, c.is_embedded = false → c ∈ batches.flatten) →
      ((processBatches embed commits batches j store acc).1.map Chunk.id
          = store.map Chunk.id) ∧
        (∀ i, idEmbedded store i = true →
          idEmbedded (processBatches embed commits batches j store acc).1 i = true) ∧
        (∀ n, (processBatches embed commits batches j store acc).2 = some n →
          n = acc + batches.flatten.length ∧
            ∀ c ∈ (processBatches embed commits batches j store acc).1,
              c.is_embedded = true) ∧
        ((processBatches embed commits batches j store acc).2 = none →
          ∃ k < batches.length,
            (∀ c ∈ (batches.take k).flatten,
              idEmbedded (processBatches embed commits batches j store acc).1 c.id
                = true) ∧
            (∀ c ∈ (batches.drop k).flatten,
              idEmbedded (processBatches embed commits batches j store acc).1 c.id
                = false)) := by
  intro batches
  induction batches with
  | nil =>
    intro j store acc _ _ _ hcover
    refine ⟨rfl, fun i h => h, fun n hn => ?_, fun hnone => by simp [processBatches] at hnone⟩
    simp only [processBatches, Option.some.injEq] at hn
    refine ⟨by simp [hn], fun c hc => ?_⟩
    cases hce : c.is_embedded
    · exact absurd (hcover c hc hce) (by simp)
    · rfl
  | cons b rest ih =>
    intro j store acc h1 hnd h3 hcover
    cases hemb : embed (b.map Chunk.chunk_content) with
    | none =>
      have heq : processBatches embed commits (b :: rest) j store acc = (store, none) := by
        simp [processBatches, hemb]
      rw [heq]
      refine ⟨rfl, fun i h => h, fun n hn => by simp at hn, fun _ => ⟨0, by simp, ?_, ?_⟩⟩
      · intro c hc
        simp at hc
      · intro c hc
        simp only [List.drop_zero] at hc
        exact idEmbedded_false_of_pending hnd (h1 c hc).1 (h1 c hc).2
    | some vs =>
      have hvslen : b.length ≤ vs.length := by
        have := hembed _ _ hemb
        rw [this, List.length_map]
      have hfst : (((b.zip vs).map (fun p => (p.1.id, p.2))).map Prod.fst)
          = b.map Chunk.id := batchUpds_map_fst hvslen
      cases hcj : commits j with
      | false =>
        have heq : processBatches embed commits (b :: rest) j store acc = (store, none) := by
          simp [processBatches, hemb, hcj]
        rw [heq]
        refine ⟨rfl, fun i h => h, fun n hn => by simp at hn, fun _ => ⟨0, by simp, ?_, ?_⟩⟩
        · intro c hc
          simp at hc
        · intro c hc
          simp only [List.drop_zero] at hc
          exact idEmbedded_false_of_pending hnd (h1 c hc).1 (h1 c hc).2
      | true =>
        have heq : processBatches embed commits (b :: rest) j store acc
            = processBatches embed commits rest (j + 1)
                (markEmbedded store ((b.zip vs).map (fun p => (p.1.id, p.2))))
                (acc + b.length) := by
          simp [processBatches, hemb, hcj]
        have hsplit : (b :: rest).flatten = b ++ rest.flatten := List.flatten_cons
        have hnd3 : ((b.map Chunk.id).Nodup ∧ ((rest.flatten).map Chunk.id).Nodup)
            ∧ ∀ i ∈ b.map Chunk.id, i ∉ (rest.flatten).map Chunk.id := by
          rw [hsplit, List.map_append] at h3
          rw [List.nodup_append] at h3
          exact ⟨⟨h3.1, h3.2.1⟩, h3.2.2⟩
        set upds := (b.zip vs).map (fun p => (p.1.id, p.2)) with hupds
        set store' := markEmbedded store upds with hstore'
        have hmem_b : ∀ c ∈ b, c ∈ store ∧ c.is_embedded = false := by
          intro c hc
          exact h1 c (hsplit ▸ List.mem_append_left _ hc)
        have hmem_rest : ∀ c ∈ rest.flatten, c ∈ store ∧ c.is_embedded = false := by
          intro c hc
          exact h1 c (hsplit ▸ List.mem_append_right _ hc)
        have hrest_not_hit : ∀ c ∈ rest.flatten, c.id ∉ upds.map Prod.fst := by
          intro c hc
          rw [hfst]
          intro hmem
          exact hnd3.2 c.id hmem (List.mem_map_of_mem Chunk.id hc)
        have h1' : ∀ c ∈ rest.flatten, c ∈ store' ∧ c.is_embedded = false := by
          intro c hc
          exact ⟨mem_markEmbedded_of_not_hit (hmem_rest c hc).1 (hrest_not_hit c hc),
            (hmem_rest c hc).2⟩
        have hnd' : (store'.map Chunk.id).Nodup := by
          rw [hstore', markEmbedded_map_id]
          exact hnd
        have hcover' : ∀ c ∈ store', c.is_embedded = false → c ∈ rest.flatten := by
          intro c' hc' hce'
          obtain ⟨c, hc, rfl⟩ := List.mem_map.mp hc'
          have hcfalse : c.is_embedded = false := by
            cases hce : c.is_embedded
            · rfl
            · rw [setEmbedded_embedded_mono hce] at hce'
              exact absurd hce' (by simp)
          have hcin : c ∈ (b :: rest).flatten := hcover c hc hcfalse
          rw [hsplit] at hcin
          rcases List.mem_append.mp hcin with hcb | hcr
          · exfalso
            have hhit : c.id ∈ upds.map Prod.fst := by
              rw [hfst]
              exact List.mem_map_of_mem Chunk.id hcb
            obtain ⟨v, hv⟩ := lookup_isSome_of_mem hhit
            have : (setEmbedded upds c).is_embedded = true := by
              unfold setEmbedded
              rw [hv]
            rw [this] at hce'
            exact absurd hce' (by simp)
          · have : setEmbedded upds c = c :=
              setEmbedded_of_lookup_none
                (lookup_eq_none_of_not_mem (hrest_not_hit c hcr))
            rw [this]
            exact hcr
        obtain ⟨ih_ids, ih_mono, ih_ok, ih_fail⟩ :=
          ih (j + 1) store' (acc + b.length) h1' hnd' hnd3.1.2 hcover'
        rw [heq]
        refine ⟨?_, ?_, ?_, ?_⟩
        · rw [ih_ids, hstore', markEmbedded_map_id]
        · intro i hi
          exact ih_mono i (idEmbedded_markEmbedded_mono hi)
        · intro n hn
          obtain ⟨hcount, hall⟩ := ih_ok n hn
          refine ⟨?_, hall⟩
          rw [hcount, hsplit, List.length_append]
          omega
        · intro hnone
          obtain ⟨k, hk, htake, hdrop⟩ := ih_fail hnone
          refine ⟨k + 1, by simpa using Nat.succ_lt_succ hk, ?_, ?_⟩
          · intro c hc
            rw [List.take_succ_cons, List.flatten_cons] at hc
            rcases List.mem_append.mp hc with hcb | hct
            · refine ih_mono c.id (idEmbedded_markEmbedded_hit (hmem_b c hcb).1 ?_)
              rw [hfst]
              exact List.mem_map_of_mem Chunk.id hcb
            · exact htake c hct
          · intro c hc
            rw [List.drop_succ_cons] at hc
            exact hdrop c hc

theorem mem_pendingChunks {store : List Chunk} {c : Chunk} :
    c ∈ pendingChunks store ↔ c ∈ store ∧ c.is_embedded = false := by
  unfold pendingChunks
  rw [List.mem_filter]
  simp

/-- C4 amended: process_pending_embeddings partitions the pending
snapshot into consecutive batches of at most batch_size; a count is
returned only when every batch succeeds and then equals the snapshot
size, with every chunk embedded afterwards; previously embedded chunks
always stay embedded; and on a failure (the raised exception, modelled
as none — no count is returned) there is a failed batch index k such
that every chunk of the batches before k is embedded in the resulting
store and no chunk of batch k or of any later batch is. -/
theorem process_pending_spec (embed : List Str → Option (List (List ℚ)))
    (commits : Nat → Bool) (bs : Nat) (store : List Chunk)
    (hbs : 0 < bs)
    (hembed : ∀ ts vs, embed ts = some vs → vs.length = ts.length)
    (hnd : (store.map Chunk.id).Nodup) :
    (∀ b ∈ chunksOf bs (pendingChunks store), b.length ≤ bs) ∧
      (chunksOf bs (pendingChunks store)).flatten = pendingChunks store ∧
      (∀ n, (process_pending_embeddings embed commits bs store).2 = some n →
        n = (pendingChunks store).length ∧
          ∀ c ∈ (process_pending_embeddings embed commits bs store).1,
            c.is_embedded = true) ∧
      (∀ i, idEmbedded store i = true →
        idEmbedded (process_pending_embeddings embed commits bs store).1 i = true) ∧
      ((process_pending_embeddings embed commits bs store).2 = none →
        ∃ k < (chunksOf bs (pendingChunks store)).length,
          (∀ c ∈ ((chunksOf bs (pendingChunks store)).take k).flatten,
            idEmbedded (process_pending_embeddings embed commits bs store).1 c.id
              = true) ∧
          (∀ c ∈ ((chunksOf bs (pendingChunks store)).drop k).flatten,
            idEmbedded (process_pending_embeddings embed commits bs store).1 c.id
              = false)) := by
  have hflat : (chunksOf bs (pendingChunks store)).flatten = pendingChunks store :=
    chunksOf_flatten bs hbs _
  refine ⟨chunksOf_length_le bs hbs _, hflat, ?_⟩
  by_cases hpe : (pendingChunks store).isEmpty
  · have heq : process_pending_embeddings embed commits bs store = (store, some 0) := by
      unfold process_pending_embeddings
      rw [if_pos hpe]
    have hnilp : pendingChunks store = [] := List.isEmpty_iff.mp hpe
    rw [heq]
    refine ⟨?_, fun i h => h, fun hnone => by simp at hnone⟩
    intro n hn
    simp only [Option.some.injEq] at hn
    refine ⟨by rw [hnilp, ← hn]; rfl, fun c hc => ?_⟩
    cases hce : c.is_embedded
    · exact absurd (mem_pendingChunks.mpr ⟨hc, hce⟩) (by rw [hnilp]; simp)
    · rfl
  · have heq : process_pending_embeddings embed commits bs store
        = processBatches embed commits (chunksOf bs (pendingChunks store)) 0 store 0 := by
      unfold process_pending_embeddings
      rw [if_neg hpe]
    have h1 : ∀ c ∈ (chunksOf bs (pendingChunks store)).flatten,
        c ∈ store ∧ c.is_embedded = false := by
      intro c hc
      rw [hflat] at hc
      exact mem_pendingChunks.mp hc
    have h3 : ((chunksOf bs (pendingChunks store)).flatten.map Chunk.id).Nodup := by
      rw [hflat]
      exact hnd.sublist (List.Sublist.map Chunk.id (List.filter_sublist store))
    have hcover : ∀ c ∈ store, c.is_embedded = false →
        c ∈ (chunksOf bs (pendingChunks store)).flatten := by
      intro c hc hce
      rw [hflat]
      exact mem_pendingChunks.mpr ⟨hc, hce⟩
    obtain ⟨_, hmono, hok, hfail⟩ :=
      processBatches_run embed commits hembed (chunksOf bs (pendingChunks store))
        0 store 0 h1 hnd h3 hcover
    rw [heq]
    refine ⟨?_, hmono, hfail⟩
    intro n hn
    obtain ⟨hcount, hall⟩ := hok n hn
    refine ⟨?_, hall⟩
    rw [hcount, hflat]
    omega

/-- C4 amended: process_pending_embeddings partitions the pending
snapshot into consecutive batches of at most batch_size; if a batch's
embedding call or commit fails, no chunk of that failed batch (nor of
any later batch) is marked embedded, chunks of prior successful
batches remain embedded, and the error is surfaced by raising — the
count is returned only when every batch succeeds, and then equals the
snapshot size. -/
theorem C4_process_pending_batch_failure
    (embed : List Str → Option (List (List ℚ)))
    (commits : Nat → Bool) (bs : Nat) (store : List Chunk)
    (hbs : 0 < bs)
    (hembed : ∀ ts vs, embed ts = some vs → vs.length = ts.length)
    (hnd : (store.map Chunk.id).Nodup) :
    (∀ b ∈ chunksOf bs (pendingChunks store), b.length ≤ bs) ∧
      (chunksOf bs (pendingChunks store)).flatten = pendingChunks store ∧
      (∀ n, (process_pending_embeddings embed commits bs store).2 = some n →
        n = (pendingChunks store).length ∧
          ∀ c ∈ (process_pending_embeddings embed commits bs store).1,
            c.is_embedded = true) ∧
      (∀ i, idEmbedded store i = true →
        idEmbedded (process_pending_embeddings embed commits bs store).1 i = true) ∧
      ((process_pending_embeddings embed commits bs store).2 = none →
        ∃ k < (chunksOf bs (pendingChunks store)).length,
          (∀ c ∈ ((chunksOf bs (pendingChunks store)).take k).flatten,
            idEmbedded (process_pending_embeddings embed commits bs store).1 c.id
              = true) ∧
          (∀ c ∈ ((chunksOf bs (pendingChunks store)).drop k).flatten,
            idEmbedded (process_pending_embeddings embed commits bs store).1 c.id
              = false)) :=
  process_pending_spec embed commits bs store hbs hembed hnd

/-- An embedding collaborator that fails on every batch except the
single text "x": used to exercise a second-batch failure. -/
def embedCex : List Str → Option (List (List ℚ)) :=
  fun ts => if ts = ["x".toList] then some [[1]] else none

/-- Two pending chunks used in embedder checks. -/
def pchunk1 : Chunk :=
  { id := 1, chunk_content := "x".toList, chunk_title := "A".toList,
    page_number := 0, embedding := none, is_embedded := false,
    meta := ⟨[1], "A".toList, 10⟩ }

def pchunk2 : Chunk :=
  { id := 2, chunk_content := "y".toList, chunk_title := "A".toList,
    page_number := 1, embedding := none, is_embedded := false,
    meta := ⟨[1], "A".toList, 10⟩ }

/-- C4 counterexample: with batch_size 1 and a failure on the second
batch, the operation raises (returns no count) even though one chunk
was successfully embedded before the failure — it does not return the
count 1 the claim promises.  The first batch's chunk stays embedded,
the failed batch's chunk stays unembedded. -/
theorem C4_counterexample :
    (process_pending_embeddings embedCex (fun _ => true) 1 [pchunk1, pchunk2]).2
        = none ∧
      (process_pending_embeddings embedCex (fun _ => true) 1 [pchunk1, pchunk2]).2
        ≠ some 1 ∧
      idEmbedded
        (process_pending_embeddings embedCex (fun _ => true) 1 [pchunk1, pchunk2]).1
        1 = true ∧
      idEmbedded
        (process_pending_embeddings embedCex (fun _ => true) 1 [pchunk1, pchunk2]).1
        2 = false := by
  refine ⟨by decide, by decide, by decide, by decide⟩

/-- A total embedding collaborator returning one vector per text. -/
def embedOk : List Str → Option (List (List ℚ)) :=
  fun ts => some (ts.map (fun _ => [0]))

theorem embedOk_len : ∀ ts vs, embedOk ts = some vs → vs.length = ts.length := by
  intro ts vs h
  unfold embedOk at h
  simp only [Option.some.injEq] at h
  rw [← h, List.length_map]

/-- Witness for C4's amended statement at a concrete failing run. -/
theorem C4_witness :
    (0 : Nat) < 1 ∧
      (([pchunk1, pchunk2].map Chunk.id).Nodup) ∧
      (∀ b ∈ chunksOf 1 (pendingChunks [pchunk1, pchunk2]), b.length ≤ 1) :=
  ⟨by decide, by decide,
    (C4_process_pending_batch_failure embedOk (fun _ => true) 1 [pchunk1, pchunk2]
      (by decide) embedOk_len (by decide)).1⟩

/-- C7: after a successful process_pending_embeddings run (the count
was returned), no pending chunk remains, so a second run — with any
collaborator, commit behaviour and batch size — processes zero chunks
and leaves the store unchanged; no chunk is embedded twice. -/
theorem C7_process_pending_idempotent
    (embed embed2 : List Str → Option (List (List ℚ)))
    (commits commits2 : Nat → Bool) (bs bs2 : Nat) (store : List Chunk) (n : Nat)
    (hbs : 0 < bs)
    (hembed : ∀ ts vs, embed ts = some vs → vs.length = ts.length)
    (hnd : (store.map Chunk.id).Nodup)
    (hfirst : (process_pending_embeddings embed commits bs store).2 = some n) :
    process_pending_embeddings embed2 commits2 bs2
        (process_pending_embeddings embed commits bs store).1
      = ((process_pending_embeddings embed commits bs store).1, some 0) := by
  obtain ⟨_, _, hok, _, _⟩ := process_pending_spec embed commits bs store hbs hembed hnd
  obtain ⟨_, hall⟩ := hok n hfirst
  have hpend : pendingChunks (process_pending_embeddings embed commits bs store).1
      = [] := by
    unfold pendingChunks
    rw [List.filter_eq_nil_iff]
    intro c hc
    rw [hall c hc]
    simp
  set r := process_pending_embeddings embed commits bs store with hr
  unfold process_pending_embeddings
  rw [hpend]
  rfl

/-- Witness for C7 at a concrete store and collaborator: the first run
embeds both chunks (count 2), the second run processes zero. -/
theorem C7_witness :
    (0 : Nat) < 1 ∧
      (([pchunk1, pchunk2].map Chunk.id).Nodup) ∧
      (process_pending_embeddings embedOk (fun _ => true) 1 [pchunk1, pchunk2]).2
        = some 2 ∧
      process_pending_embeddings embedOk (fun _ => true) 1
          (process_pending_embeddings embedOk (fun _ => true) 1 [pchunk1, pchunk2]).1
        = ((process_pending_embeddings embedOk (fun _ => true) 1
            [pchunk1, pchunk2]).1, some 0) :=
  ⟨by decide, by decide, by decide,
    C7_process_pending_idempotent embedOk embedOk (fun _ => true) (fun _ => true)
      1 1 [pchunk1, pchunk2] 2 (by decide) embedOk_len (by decide) (by decide)⟩

/-! ### Re-chunking and deletion (cli/commands/chunk.py) -/

/-- The chunks rechunk_document reads: SELECT WHERE chunk_title == source. -/
def rechunkExisting (source : Str) (store : List Chunk) : List Chunk :=
  store.filter (fun c => c.chunk_title == source)

/-- The store after rechunk's committed DELETE WHERE chunk_title == source. -/
def rechunkRemainder (source : Str) (store : List Chunk) : List Chunk :=
  store.filter (fun c => !(c.chunk_title == source))

/-- The "\n\n".join of the existing chunks' contents that rechunk
re-chunks. -/
def rechunkJoined (source : Str) (store : List Chunk) : Str :=
  joinParas ((rechunkExisting source store).map Chunk.chunk_content)

/-- rechunk_document: read all chunks whose title equals source (if
none, report and stop), delete them and COMMIT that delete in the
first session, join their contents with a blank line, re-chunk, then
insert the new chunks through store_chunks in a second session
(insertOk models whether that second transaction commits; a failure
there leaves the already committed delete in place).  Returns the new
chunk count, or none when the operation stopped or raised. -/
def rechunk_document (tc : Str → Nat) (maxT : Int) (ids : List Nat)
    (insertOk : Bool) (source : Str) (store : List Chunk) :
    List Chunk × Option Nat :=
  if (rechunkExisting source store).isEmpty then (store, none)
  else
    store_chunks source maxT ids
      (chunk_text tc maxT (rechunkJoined source store))
      insertOk (rechunkRemainder source store)

/-- delete_chunks: delete every chunk, or only those of one source
title; returns the count of deleted chunks. -/
def delete_chunks (source : Option Str) (store : List Chunk) :
    List Chunk × Nat :=
  match source with
  | some s => (store.filter (fun c => !(c.chunk_title == s)),
      (store.filter (fun c => c.chunk_title == s)).length)
  | none => ([], store.length)

/-- C3: the code commits the delete in a first session and only then
inserts through a second session, so a failure after the delete but
before re-insertion loses the source's original chunks: with one
stored chunk for title "A" and a failing insert, the resulting store
is empty rather than the original — rechunk is not one transaction. -/
theorem C3_rechunk_not_transactional :
    rechunk_document charCountTok 10 [5] false "A".toList [pchunk1]
        = ([], none) ∧
      ([] : List Chunk) ≠ [pchunk1] := by
  refine ⟨by decide, by decide⟩

/-- A stored chunk whose content has a double space, which re-joining
splits words on single spaces cannot reproduce. -/
def oldChunkC6 : Chunk :=
  { id := 3, chunk_content := "a  b".toList, chunk_title := "A".toList,
    page_number := 0, embedding := none, is_embedded := false,
    meta := ⟨[1], "A".toList, 3⟩ }

/-- C6 counterexample: rechunking a source whose single chunk's
content is "a  b" (double space) with budget 3 succeeds (one new
chunk), but the new concatenated content is "a b" — the greedy word
pack re-joins with single spaces — so the round trip does not preserve
the concatenated content exactly. -/
theorem C6_counterexample :
    (rechunk_document charCountTok 3 [9] true "A".toList [oldChunkC6]).2
        = some 1 ∧
      joinParas
          (((rechunk_document charCountTok 3 [9] true "A".toList [oldChunkC6]).1).map
            Chunk.chunk_content)
        ≠ joinParas ([oldChunkC6].map Chunk.chunk_content) := by
  refine ⟨by decide, by decide⟩

theorem newChunks_map_id {source : Str} {maxT : Int} {ids : List Nat}
    {cands : List Candidate} (hlen : ids.length = cands.length) :
    (newChunks source maxT ids cands).map Chunk.id = ids := by
  unfold newChunks
  rw [List.map_map]
  have h1 : (Chunk.id ∘ fun p : Nat × Candidate => mkChunk source maxT p.1 p.2)
      = Prod.fst := by
    funext p
    rfl
  rw [h1]
  exact List.map_fst_zip ids cands (le_of_eq hlen)

theorem newChunks_map_content {source : Str} {maxT : Int} {ids : List Nat}
    {cands : List Candidate} (hlen : ids.length = cands.length) :
    (newChunks source maxT ids cands).map Chunk.chunk_content
      = cands.map Candidate.text := by
  unfold newChunks
  rw [List.map_map]
  have h1 : (Chunk.chunk_content ∘ fun p : Nat × Candidate => mkChunk source maxT p.1 p.2)
      = Candidate.text ∘ Prod.snd := by
    funext p
    rfl
  rw [h1, ← List.map_map]
  rw [List.map_snd_zip ids cands (le_of_eq hlen.symm)]

/-- When every paragraph fits the budget, chunk_text keeps each
paragraph whole, in order. -/
theorem chunkLoop_all_fit (tc : Str → Nat) (maxT : Int) :
    ∀ ps : List Str, ∀ i : Nat, (∀ p ∈ ps, (tc p : Int) ≤ maxT) →
      (chunkLoop tc maxT i ps).map Candidate.text = ps := by
  intro ps
  induction ps with
  | nil => intro i _; rw [chunkLoop_nil]; rfl
  | cons p ps ih =>
    intro i hfit
    rw [chunkLoop_cons, if_pos (hfit p (List.mem_cons_self _ _))]
    simp only [List.map_append, List.map_cons, List.map_nil]
    rw [ih (i + 1) (fun q hq => hfit q (List.mem_cons_of_mem _ hq))]
    rfl

/-- The words of the chunk_text output reproduce the words of the
input text (the word-preservation part of the chunker's contract). -/
theorem chunk_text_words (tc : Str → Nat) (maxT : Int) (text : Str) :
    ((chunk_text tc maxT text).map (fun c => pyWords c.text)).flatten
      = pyWords text := by
  unfold chunk_text
  rw [chunkLoop_words tc maxT (chunkParagraphs text) 0]
  unfold chunkParagraphs
  rw [words_filter_hasContent, pyWords_splitParas]

theorem packWordsAux_ne_nil (tc : Str → Nat) (maxT : Int) (i : Nat) :
    ∀ ws cur : List Str, ∀ curLen : Nat, cur ≠ [] ∨ ws ≠ [] →
      packWordsAux tc maxT i ws cur curLen ≠ [] := by
  intro ws
  induction ws with
  | nil =>
    intro cur curLen h
    rcases h with h | h
    · rw [packWordsAux_nil, if_neg (by simpa using h)]
      simp
    · exact absurd rfl h
  | cons w ws ih =>
    intro cur curLen _
    rw [packWordsAux_cons]
    by_cases h : (curLen + tc w : Int) ≤ maxT
    · rw [if_pos h]
      exact ih (cur ++ [w]) (curLen + tc w) (Or.inl (by simp))
    · rw [if_neg h]
      simp

theorem chunkLoop_ne_nil (tc : Str → Nat) (maxT : Int) (i : Nat) (p : Str)
    (ps : List Str) (hp : hasContent p = true) :
    chunkLoop tc maxT i (p :: ps) ≠ [] := by
  rw [chunkLoop_cons]
  intro hnil
  rcases List.append_eq_nil.mp hnil with ⟨h1, _⟩
  by_cases h : (tc p : Int) ≤ maxT
  · rw [if_pos h] at h1
    simp at h1
  · rw [if_neg h] at h1
    exact packWordsAux_ne_nil tc maxT i (pyWords p) [] 0
      (Or.inr (pyWords_ne_nil_of_hasContent hp)) h1

theorem chunkParagraphs_ne_nil_of_hasContent {text : Str}
    (h : hasContent text = true) : chunkParagraphs text ≠ [] := by
  intro hnil
  apply pyWords_ne_nil_of_hasContent h
  calc pyWords text
      = ((splitParas text).map pyWords).flatten := (pyWords_splitParas text).symm
    _ = (((splitParas text).filter hasContent).map pyWords).flatten :=
        (words_filter_hasContent _).symm
    _ = [] := by
        rw [show (splitParas text).filter hasContent = chunkParagraphs text from rfl,
          hnil]
        rfl

/-- A text with any non-whitespace character always produces at least
one candidate. -/
theorem chunk_text_ne_nil (tc : Str → Nat) (maxT : Int) {text : Str}
    (h : hasContent text = true) : chunk_text tc maxT text ≠ [] := by
  unfold chunk_text
  cases hps : chunkParagraphs text with
  | nil => exact absurd hps (chunkParagraphs_ne_nil_of_hasContent h)
  | cons p ps =>
    refine chunkLoop_ne_nil tc maxT 0 p ps ?_
    have hmem : p ∈ chunkParagraphs text := by
      rw [hps]
      exact List.mem_cons_self _ _
    exact (List.mem_filter.mp hmem).2

/-- C6 amended: a successful rechunk replaces the source's chunks by
the chunk_text output over the blank-line join of the original
contents and returns its count; no old id of that source remains in
the store and the word sequence of the original concatenated content
is always preserved in the new chunks' contents (also for over-budget
sources); the count is non-zero whenever the join contains any
non-whitespace character (a blank-content source yields zero new
chunks); and whenever every paragraph of the join is non-blank and
fits the budget, the blank-line join of the new contents equals the
original join exactly (an over-budget paragraph is instead re-joined
with single spaces, preserving the words but not the exact whitespace,
as the counterexample shows). -/
theorem C6_rechunk_round_trip (tc : Str → Nat) (maxT : Int) (ids : List Nat)
    (source : Str) (store : List Chunk)
    (hex : rechunkExisting source store ≠ [])
    (hnd : (store.map Chunk.id).Nodup)
    (hfresh : ∀ i ∈ ids, i ∉ store.map Chunk.id)
    (hlen : ids.length = (chunk_text tc maxT (rechunkJoined source store)).length) :
    (rechunk_document tc maxT ids true source store).1
        = rechunkRemainder source store
            ++ newChunks source maxT ids
                (chunk_text tc maxT (rechunkJoined source store)) ∧
      (rechunk_document tc maxT ids true source store).2
        = some (chunk_text tc maxT (rechunkJoined source store)).length ∧
      (∀ cOld ∈ rechunkExisting source store,
        cOld.id ∉ (rechunk_document tc maxT ids true source store).1.map Chunk.id) ∧
      (((newChunks source maxT ids
          (chunk_text tc maxT (rechunkJoined source store))).map
            Chunk.chunk_content).map pyWords).flatten
        = pyWords (rechunkJoined source store) ∧
      (hasContent (rechunkJoined source store) = true →
        0 < (chunk_text tc maxT (rechunkJoined source store)).length) ∧
      ((∀ p ∈ splitParas (rechunkJoined source store),
          hasContent p = true ∧ (tc p : Int) ≤ maxT) →
        joinParas ((newChunks source maxT ids
            (chunk_text tc maxT (rechunkJoined source store))).map
              Chunk.chunk_content)
          = rechunkJoined source store) := by
  have heq : rechunk_document tc maxT ids true source store
      = (rechunkRemainder source store
          ++ newChunks source maxT ids
              (chunk_text tc maxT (rechunkJoined source store)),
        some (chunk_text tc maxT (rechunkJoined source store)).length) := by
    unfold rechunk_document
    rw [if_neg (by simpa using hex)]
    unfold store_chunks
    rw [if_pos rfl]
  have hwords : (((newChunks source maxT ids
      (chunk_text tc maxT (rechunkJoined source store))).map
        Chunk.chunk_content).map pyWords).flatten
      = pyWords (rechunkJoined source store) := by
    rw [newChunks_map_content hlen, List.map_map]
    simpa [Function.comp] using chunk_text_words tc maxT (rechunkJoined source store)
  have hpos : hasContent (rechunkJoined source store) = true →
      0 < (chunk_text tc maxT (rechunkJoined source store)).length := by
    intro h
    exact List.length_pos.mpr (chunk_text_ne_nil tc maxT h)
  have hjoin : (∀ p ∈ splitParas (rechunkJoined source store),
      hasContent p = true ∧ (tc p : Int) ≤ maxT) →
      joinParas ((newChunks source maxT ids
          (chunk_text tc maxT (rechunkJoined source store))).map
            Chunk.chunk_content)
        = rechunkJoined source store := by
    intro hparas
    have hctext : (chunk_text tc maxT (rechunkJoined source store)).map Candidate.text
        = splitParas (rechunkJoined source store) := by
      unfold chunk_text
      have hfilt : chunkParagraphs (rechunkJoined source store)
          = splitParas (rechunkJoined source store) := by
        unfold chunkParagraphs
        exact List.filter_eq_self.mpr fun p hp => (hparas p hp).1
      rw [hfilt]
      exact chunkLoop_all_fit tc maxT _ 0 fun p hp => (hparas p hp).2
    rw [newChunks_map_content hlen, hctext, joinParas_splitParas]
  refine ⟨by rw [heq], by rw [heq], ?_, hwords, hpos, hjoin⟩
  intro cOld hcOld
  have hcOld_store : cOld ∈ store := (List.mem_filter.mp hcOld).1
  have hcOld_title : (cOld.chunk_title == source) = true :=
    (List.mem_filter.mp hcOld).2
  rw [heq]
  simp only [List.map_append]
  rw [newChunks_map_id hlen]
  intro hmem
  rcases List.mem_append.mp hmem with hmem | hmem
  · obtain ⟨c', hc', hcid⟩ := List.mem_map.mp hmem
    have hc'_store : c' ∈ store := (List.mem_filter.mp hc').1
    have hc'_title : (!(c'.chunk_title == source)) = true :=
      (List.mem_filter.mp hc').2
    have : c' = cOld := eq_of_mem_of_nodup_ids hnd hc'_store hcOld_store hcid
    rw [this, hcOld_title] at hc'_title
    exact absurd hc'_title (by simp)
  · exact hfresh cOld.id hmem (List.mem_map_of_mem Chunk.id hcOld_store)

/-- Witness for C6 at two concrete stores: an over-budget source
(content "a  b", budget 3) exercising the unconditional parts — count
returned, old id cleared, words preserved, non-zero count — and a
within-budget source (content "x", budget 10) exercising the exact
join equality. -/
theorem C6_witness :
    ((rechunk_document charCountTok 3 [9] true "A".toList [oldChunkC6]).2
        = some (chunk_text charCountTok 3
            (rechunkJoined "A".toList [oldChunkC6])).length ∧
      (∀ cOld ∈ rechunkExisting "A".toList [oldChunkC6],
        cOld.id ∉ (rechunk_document charCountTok 3 [9] true "A".toList
          [oldChunkC6]).1.map Chunk.id) ∧
      (((newChunks "A".toList 3 [9]
          (chunk_text charCountTok 3 (rechunkJoined "A".toList [oldChunkC6]))).map
            Chunk.chunk_content).map pyWords).flatten
        = pyWords (rechunkJoined "A".toList [oldChunkC6]) ∧
      0 < (chunk_text charCountTok 3
        (rechunkJoined "A".toList [oldChunkC6])).length) ∧
      joinParas ((newChunks "A".toList 10 [9]
          (chunk_text charCountTok 10 (rechunkJoined "A".toList [pchunk1]))).map
            Chunk.chunk_content)
        = rechunkJoined "A".toList [pchunk1] :=
  ⟨⟨(C6_rechunk_round_trip charCountTok 3 [9] "A".toList [oldChunkC6]
      (by decide) (by decide) (by decide) (by decide)).2.1,
    (C6_rechunk_round_trip charCountTok 3 [9] "A".toList [oldChunkC6]
      (by decide) (by decide) (by decide) (by decide)).2.2.1,
    (C6_rechunk_round_trip charCountTok 3 [9] "A".toList [oldChunkC6]
      (by decide) (by decide) (by decide) (by decide)).2.2.2.1,
    (C6_rechunk_round_trip charCountTok 3 [9] "A".toList [oldChunkC6]
      (by decide) (by decide) (by decide) (by decide)).2.2.2.2.1 (by decide)⟩,
    (C6_rechunk_round_trip charCountTok 10 [9] "A".toList [pchunk1]
      (by decide) (by decide) (by decide) (by decide)).2.2.2.2.2 (by decide)⟩

/-! ### The embedding/flag invariant -/

/-- The store invariant of the data model: a chunk's embedding vector
is present exactly when its is_embedded flag is set. -/
def EmbInv (store : List Chunk) : Prop :=
  ∀ c ∈ store, c.embedding.isSome = c.is_embedded

instance (store : List Chunk) : Decidable (EmbInv store) :=
  inferInstanceAs (Decidable (∀ c ∈ store, c.embedding.isSome = c.is_embedded))

theorem embInv_filter {store : List Chunk} (p : Chunk → Bool)
    (hinv : EmbInv store) : EmbInv (store.filter p) :=
  fun c hc => hinv c (List.mem_of_mem_filter hc)

theorem embInv_append {a b : List Chunk} (ha : EmbInv a) (hb : EmbInv b) :
    EmbInv (a ++ b) := by
  intro c hc
  rcases List.mem_append.mp hc with h | h
  · exact ha c h
  · exact hb c h

theorem embInv_newChunks (source : Str) (maxT : Int) (ids : List Nat)
    (cands : List Candidate) : EmbInv (newChunks source maxT ids cands) := by
  intro c hc
  obtain ⟨p, _, rfl⟩ := List.mem_map.mp hc
  rfl

theorem embInv_markEmbedded {store : List Chunk} (upds : List (Nat × List ℚ))
    (hinv : EmbInv store) : EmbInv (markEmbedded store upds) := by
  intro c' hc'
  obtain ⟨c, hc, rfl⟩ := List.mem_map.mp hc'
  unfold setEmbedded
  cases upds.lookup c.id with
  | none => exact hinv c hc
  | some v => rfl

theorem embInv_processBatches (embed : List Str → Option (List (List ℚ)))
    (commits : Nat → Bool) :
    ∀ batches : List (List Chunk), ∀ j : Nat, ∀ store : List Chunk, ∀ acc : Nat,
      EmbInv store → EmbInv (processBatches embed commits batches j store acc).1 := by
  intro batches
  induction batches with
  | nil => intro j store acc hinv; exact hinv
  | cons b rest ih =>
    intro j store acc hinv
    cases hemb : embed (b.map Chunk.chunk_content) with
    | none => simpa [processBatches, hemb] using hinv
    | some vs =>
      cases hcj : commits j with
      | false => simpa [processBatches, hemb, hcj] using hinv
      | true =>
        have heq : (processBatches embed commits (b :: rest) j store acc).1
            = (processBatches embed commits rest (j + 1)
                (markEmbedded store ((b.zip vs).map (fun p => (p.1.id, p.2))))
                (acc + b.length)).1 := by
          simp [processBatches, hemb, hcj]
        rw [heq]
        exact ih (j + 1) _ (acc + b.length) (embInv_markEmbedded _ hinv)

/-- C8: every pipeline operation — persisting new chunks, embedding
pending chunks, re-chunking a source, deleting chunks — preserves the
invariant that a chunk's embedding is present if and only if its
is_embedded flag is true: creation writes no vector with the flag
false, and the embedder sets vector and flag together in one committed
transition. -/
theorem C8_embedding_iff_flag
    (source : Str) (maxT : Int) (ids : List Nat) (cands : List Candidate)
    (commitOk insertOk : Bool)
    (embed : List Str → Option (List (List ℚ))) (commits : Nat → Bool)
    (bs : Nat) (tc : Str → Nat) (osource : Option Str)
    (store : List Chunk) (hinv : EmbInv store) :
    EmbInv (store_chunks source maxT ids cands commitOk store).1 ∧
      EmbInv (process_pending_embeddings embed commits bs store).1 ∧
      EmbInv (rechunk_document tc maxT ids insertOk source store).1 ∧
      EmbInv (delete_chunks osource store).1 := by
  refine ⟨?_, ?_, ?_, ?_⟩
  · unfold store_chunks
    cases commitOk with
    | false => simpa using hinv
    | true =>
      simp only [if_pos]
      exact embInv_append hinv (embInv_newChunks source maxT ids cands)
  · unfold process_pending_embeddings
    by_cases hpe : (pendingChunks store).isEmpty
    · rw [if_pos hpe]
      exact hinv
    · rw [if_neg hpe]
      exact embInv_processBatches embed commits _ 0 store 0 hinv
  · unfold rechunk_document
    by_cases hex : (rechunkExisting source store).isEmpty
    · rw [if_pos hex]
      exact hinv
    · rw [if_neg hex]
      unfold store_chunks
      cases insertOk with
      | false => simpa using embInv_filter _ hinv
      | true =>
        simp only [if_pos]
        exact embInv_append (embInv_filter _ hinv) (embInv_newChunks _ _ _ _)
  · unfold delete_chunks
    cases osource with
    | none => intro c hc; simp at hc
    | some s => exact embInv_filter _ hinv

/-- Witness for C8 at a concrete store and concrete operations. -/
theorem C8_witness :
    EmbInv [pchunk1] ∧
      EmbInv (store_chunks "A".toList 10 [9] [⟨"ab".toList, 1, 0⟩] true [pchunk1]).1 ∧
      EmbInv (process_pending_embeddings embedOk (fun _ => true) 1 [pchunk1]).1 ∧
      EmbInv (rechunk_document charCountTok 10 [9] true "A".toList [pchunk1]).1 ∧
      EmbInv (delete_chunks none [pchunk1]).1 := by
  have h := C8_embedding_iff_flag "A".toList 10 [9] [⟨"ab".toList, 1, 0⟩] true true
    embedOk (fun _ => true) 1 charCountTok none [pchunk1] (by decide)
  exact ⟨by decide, h.1, h.2.1, h.2.2.1, h.2.2.2⟩
